import Mathlib

/-!
Verification of the Cirq state-evolution engine excerpt: the channel-sampling
branch selection, the operator-application strategy chain, the entanglement
tracking container (merge/split/swap bookkeeping), container-wide sampling,
stabilizer CH-form sampling, and state-vector sampling.

Each definition is a shallow embedding of the corresponding Python code in
`cirq/sim/act_on_state_vector_args.py`, `cirq/sim/act_on_args_container.py`
and `cirq/sim/clifford/act_on_stabilizer_ch_form_args.py`.
-/

namespace CirqSim

/-! ### Channel-sampling branch selection

Embeds the selection loop of `_strat_act_on_state_vector_from_channel`
(act_on_state_vector_args.py, lines 336-358).  The loop applies each Kraus
operator in turn, computes the squared norm `weight` of the result, tracks the
highest weight seen (`fallback_weight`, `fallback_weight_index`), subtracts
`weight` from the drawn sample `p`, and breaks as soon as `p < 0`.  Afterwards,
if `p >= 0 or weight == 0`, the fallback branch is used instead.  The numeric
type is abstracted to a linear ordered field (the code uses floats). -/

structure KrausLoopResult (α : Type) where
  pFinal : α
  weight : α
  index : Nat
  fallbackWeight : α
  fallbackIndex : Nat
  deriving Repr, DecidableEq

/-- The `for index in range(len(kraus_tensors))` loop body, with the current
weight `w`, remaining weights `rest`, loop counter `i`, running sample `p`, and
running fallback state `fbW`, `fbI`. -/
def krausLoop {α : Type} [LinearOrderedField α] (w : α) (rest : List α)
    (i : Nat) (p fbW : α) (fbI : Nat) : KrausLoopResult α :=
  let fbW' := if w > fbW then w else fbW
  let fbI' := if w > fbW then i else fbI
  let p' := p - w
  if p' < 0 then ⟨p', w, i, fbW', fbI'⟩
  else
    match rest with
    | [] => ⟨p', w, i, fbW', fbI'⟩
    | w2 :: rest2 => krausLoop w2 rest2 (i + 1) p' fbW' fbI'

/-- Branch selection of the channel-sampling strategy: given the branch weights
`ws` (the squared norms `w_i` computed by the loop) and the drawn sample `p`,
returns the selected branch index and its weight.  `none` models the
`assert weight is not None, "No Kraus operators"` failure on an empty list.
After the loop, `if p >= 0 or weight == 0` the fallback branch is selected. -/
def selectKraus {α : Type} [LinearOrderedField α] (ws : List α) (p : α) :
    Option (Nat × α) :=
  match ws with
  | [] => none
  | w :: rest =>
    if 0 ≤ (krausLoop w rest 0 p 0 0).pFinal ∨ (krausLoop w rest 0 p 0 0).weight = 0 then
      some ((krausLoop w rest 0 p 0 0).fallbackIndex,
        (krausLoop w rest 0 p 0 0).fallbackWeight)
    else some ((krausLoop w rest 0 p 0 0).index, (krausLoop w rest 0 p 0 0).weight)

/-- Reference fold computing the running highest-weight branch exactly as the
loop's `if weight > fallback_weight` update does (first strict maximum wins). -/
def runFb {α : Type} [LinearOrderedField α] : List α → Nat → α → Nat → α × Nat
  | [], _, fbW, fbI => (fbW, fbI)
  | x :: xs, i, fbW, fbI =>
    if x > fbW then runFb xs (i + 1) x i else runFb xs (i + 1) fbW fbI

theorem runFb_spec {α : Type} [LinearOrderedField α] (l : List α) :
    ∀ (i0 : Nat) (fbW : α) (fbI : Nat),
      fbW ≤ (runFb l i0 fbW fbI).1 ∧
      (∀ x ∈ l, x ≤ (runFb l i0 fbW fbI).1) ∧
      (((runFb l i0 fbW fbI).1 = fbW ∧ (runFb l i0 fbW fbI).2 = fbI) ∨
        (∃ k, k < l.length ∧ (runFb l i0 fbW fbI).2 = i0 + k ∧
          (runFb l i0 fbW fbI).1 = l.getD k 0 ∧ fbW < (runFb l i0 fbW fbI).1 ∧
          ∀ j, j < k → l.getD j 0 < (runFb l i0 fbW fbI).1)) := by
  induction l with
  | nil => intro i0 fbW fbI; refine ⟨le_refl _, by simp, Or.inl ⟨rfl, rfl⟩⟩
  | cons x xs ih =>
    intro i0 fbW fbI
    by_cases hx : x > fbW
    · have h := ih (i0 + 1) x i0
      rw [runFb, if_pos hx]
      refine ⟨le_trans (le_of_lt hx) h.1, ?_, ?_⟩
      · intro y hy
        rcases List.mem_cons.mp hy with h1 | h2
        · exact h1 ▸ h.1
        · exact h.2.1 y h2
      · rcases h.2.2 with ⟨hW, hI⟩ | ⟨k, hk, hI, hW, hlt, hall⟩
        · refine Or.inr ⟨0, by simp, by omega, by simpa using hW, ?_, ?_⟩
          · rw [hW]; exact hx
          · intro j hj; omega
        · refine Or.inr ⟨k + 1, by simpa using hk, by omega, by simpa using hW,
            lt_trans hx hlt, ?_⟩
          intro j hj
          cases j with
          | zero => simpa using hlt
          | succ j' => simpa using hall j' (by omega)
    · have h := ih (i0 + 1) fbW fbI
      rw [runFb, if_neg hx]
      refine ⟨h.1, ?_, ?_⟩
      · intro y hy
        rcases List.mem_cons.mp hy with h1 | h2
        · exact h1 ▸ le_trans (le_of_not_lt hx) h.1
        · exact h.2.1 y h2
      · rcases h.2.2 with ⟨hW, hI⟩ | ⟨k, hk, hI, hW, hlt, hall⟩
        · exact Or.inl ⟨hW, hI⟩
        · refine Or.inr ⟨k + 1, by simpa using hk, by omega, by simpa using hW, hlt, ?_⟩
          intro j hj
          cases j with
          | zero => simpa using lt_of_le_of_lt (le_of_not_lt hx) hlt
          | succ j' => simpa using hall j' (by omega)

/-- The loop processes a non-empty initial segment `pr` of the weights; its
fallback state is the `runFb` fold over `pr`, its final `index`/`weight` are
the last processed position, `p` has decreased by the processed mass, and the
loop runs to completion unless it broke with `p < 0`. -/
theorem krausLoop_spec {α : Type} [LinearOrderedField α] (rest : List α) :
    ∀ (w : α) (i : Nat) (p fbW : α) (fbI : Nat),
      ∃ pr : List α, ∃ suf : List α,
        pr ≠ [] ∧ w :: rest = pr ++ suf ∧
        ((krausLoop w rest i p fbW fbI).fallbackWeight,
          (krausLoop w rest i p fbW fbI).fallbackIndex) = runFb pr i fbW fbI ∧
        (krausLoop w rest i p fbW fbI).index = i + (pr.length - 1) ∧
        (krausLoop w rest i p fbW fbI).weight = pr.getD (pr.length - 1) 0 ∧
        (krausLoop w rest i p fbW fbI).pFinal = p - pr.sum ∧
        (suf = [] ∨ (krausLoop w rest i p fbW fbI).pFinal < 0) ∧
        (0 ≤ p → 0 ≤ p - pr.sum + pr.getD (pr.length - 1) 0) := by
  induction rest with
  | nil =>
    intro w i p fbW fbI
    refine ⟨[w], [], by simp, by simp, ?_⟩
    rw [krausLoop]
    by_cases hp : p - w < 0 <;> by_cases hw : fbW < w <;>
      simp [hp, hw, runFb] <;> intro h <;> linarith
  | cons w2 rest2 ih =>
    intro w i p fbW fbI
    by_cases hp : p - w < 0
    · refine ⟨[w], w2 :: rest2, by simp, by simp, ?_⟩
      rw [krausLoop, if_pos hp]
      by_cases hw : fbW < w <;> simp [runFb, hp, hw] <;> intro h <;> linarith
    · obtain ⟨pr, suf, hne, happ, hfb, hidx, hwt, hpf, hbr, hpart⟩ :=
        ih w2 (i + 1) (p - w) (if w > fbW then w else fbW) (if w > fbW then i else fbI)
      refine ⟨w :: pr, suf, by simp, by rw [List.cons_append, happ],
        ?_, ?_, ?_, ?_, ?_, ?_⟩
      · rw [krausLoop, if_neg hp]
        rw [show runFb (w :: pr) i fbW fbI = runFb pr (i + 1)
            (if w > fbW then w else fbW) (if w > fbW then i else fbI) by
          rw [runFb]; by_cases hw : w > fbW <;> simp [hw]]
        exact hfb
      · rw [krausLoop, if_neg hp]
        rw [hidx]
        have : pr.length ≠ 0 := by simpa using hne
        simp only [List.length_cons]
        omega
      · rw [krausLoop, if_neg hp, hwt]
        have hne' : pr.length ≠ 0 := by simpa using hne
        have h2 : (w :: pr).length - 1 = (pr.length - 1) + 1 := by
          simp only [List.length_cons]; omega
        rw [h2, List.getD_cons_succ]
      · rw [krausLoop, if_neg hp, hpf]
        simp only [List.sum_cons]
        ring
      · rw [krausLoop, if_neg hp]
        exact hbr
      · intro hp0
        have hple : 0 ≤ p - w := le_of_not_lt hp
        have h1 := hpart hple
        have hne' : pr.length ≠ 0 := by simpa using hne
        have h2 : (w :: pr).length - 1 = (pr.length - 1) + 1 := by
          simp only [List.length_cons]
          omega
        rw [h2, List.getD_cons_succ, List.sum_cons]
        linarith

theorem getD_append_left {α : Type} (l l' : List α) (d : α) (k : Nat)
    (h : k < l.length) : (l ++ l').getD k d = l.getD k d := by
  rw [List.getD_eq_getElem?_getD, List.getD_eq_getElem?_getD,
    List.getElem?_append_left h]

theorem getD_mem {α : Type} (l : List α) (d : α) (j : Nat) (h : j < l.length) :
    l.getD j d ∈ l := by
  induction l generalizing j with
  | nil => simp at h
  | cons x xs ih =>
    cases j with
    | zero => simp
    | succ j' =>
      simp only [List.getD_cons_succ]
      exact List.mem_cons_of_mem _ (ih j' (by simpa using h))

/-- The selected branch's weight really is the weight of the selected branch,
and the selected index is in range. -/
theorem selectKraus_sound {α : Type} [LinearOrderedField α] (ws : List α)
    (p : α) (i : Nat) (w : α) (hnn : ∀ x ∈ ws, 0 ≤ x)
    (h : selectKraus ws p = some (i, w)) :
    i < ws.length ∧ w = ws.getD i 0 := by
  match ws, hnn, h with
  | w0 :: rest, hnn, h =>
    obtain ⟨pr, suf, hne, happ, hfb, hidx, hwt, hpf, hbr, hpart⟩ :=
      krausLoop_spec rest w0 0 p 0 0
    have hprne : pr.length ≠ 0 := by simpa using hne
    have hprlen : pr.length ≤ (w0 :: rest).length := by rw [happ]; simp
    have hgd : ∀ k, k < pr.length → (w0 :: rest).getD k 0 = pr.getD k 0 := by
      intro k hk; rw [happ]; exact getD_append_left _ _ _ _ hk
    rw [selectKraus] at h
    by_cases hc : 0 ≤ (krausLoop w0 rest 0 p 0 0).pFinal ∨
        (krausLoop w0 rest 0 p 0 0).weight = 0
    · rw [if_pos hc, Option.some.injEq, Prod.mk.injEq] at h
      obtain ⟨hI, hW⟩ := h
      have hpair : runFb pr 0 0 0 = (w, i) := by rw [← hfb, hI, hW]
      obtain ⟨hle, hub, hcase⟩ := runFb_spec pr 0 0 0
      rw [hpair] at hub hcase
      rcases hcase with ⟨hW0, hI0⟩ | ⟨k, hk, hIk, hWk, _, _⟩
      · have hw : w = 0 := hW0
        have hi : i = 0 := hI0
        have h0lt : (0 : Nat) < pr.length := by omega
        have hmem : pr.getD 0 0 ∈ pr := getD_mem pr 0 0 h0lt
        have hmem' : pr.getD 0 0 ∈ w0 :: rest := by
          rw [happ]; exact List.mem_append_left _ hmem
        refine ⟨by simp [hi], ?_⟩
        have h1 : pr.getD 0 0 ≤ w := hub _ hmem
        have h2 : 0 ≤ pr.getD 0 0 := hnn _ hmem'
        rw [hi, hgd 0 h0lt, hw]
        linarith
      · have hi : i = k := by simpa using hIk
        have hw : w = pr.getD k 0 := hWk
        refine ⟨by omega, ?_⟩
        rw [hi, hgd k hk, hw]
    · rw [if_neg hc, Option.some.injEq, Prod.mk.injEq] at h
      obtain ⟨hI, hW⟩ := h
      have hi : i = pr.length - 1 := by rw [← hI, hidx]; omega
      refine ⟨by omega, ?_⟩
      rw [← hW, hwt, hi, hgd (pr.length - 1) (by omega)]

/-- When the list is non-empty, selection always succeeds. -/
theorem selectKraus_isSome {α : Type} [LinearOrderedField α] (ws : List α)
    (p : α) (hne : ws ≠ []) : ∃ i w, selectKraus ws p = some (i, w) := by
  match ws, hne with
  | w0 :: rest, _ =>
    rw [selectKraus]
    by_cases hc : 0 ≤ (krausLoop w0 rest 0 p 0 0).pFinal ∨
        (krausLoop w0 rest 0 p 0 0).weight = 0
    · rw [if_pos hc]; exact ⟨_, _, rfl⟩
    · rw [if_neg hc]; exact ⟨_, _, rfl⟩

/-- A selected branch of weight zero can only arise when the cumulative mass
never exceeded the (nonnegative) sample — the code's two fallback conditions
conflate into the exhaustion case under exact arithmetic. -/
theorem selectKraus_zero_weight {α : Type} [LinearOrderedField α]
    (ws : List α) (p : α) (hp : 0 ≤ p) (i : Nat) (w : α)
    (h : selectKraus ws p = some (i, w)) (hw : w = 0) : ws.sum ≤ p := by
  match ws, h with
  | w0 :: rest, h =>
    obtain ⟨pr, suf, hne, happ, hfb, hidx, hwt, hpf, hbr, hpart⟩ :=
      krausLoop_spec rest w0 0 p 0 0
    rw [selectKraus] at h
    by_cases hc : 0 ≤ (krausLoop w0 rest 0 p 0 0).pFinal ∨
        (krausLoop w0 rest 0 p 0 0).weight = 0
    · have hpf0 : 0 ≤ (krausLoop w0 rest 0 p 0 0).pFinal := by
        rcases hc with h1 | h1
        · exact h1
        · have h2 := hpart hp
          rw [hwt] at h1
          rw [h1] at h2
          rw [hpf]
          linarith
      have hsuf : suf = [] := by
        rcases hbr with h1 | h1
        · exact h1
        · linarith
      have hpr : pr = w0 :: rest := by
        have h3 := happ
        rw [hsuf, List.append_nil] at h3
        exact h3.symm
      rw [hpf, hpr] at hpf0
      linarith
    · rw [if_neg hc, Option.some.injEq, Prod.mk.injEq] at h
      obtain ⟨_, hW⟩ := h
      push_neg at hc
      exact absurd (hW.trans hw) hc.2

/-- **C1.** Channel-sampling on a dense-tensor representation: for every
non-empty Kraus weight list (weights are squared norms, hence nonnegative)
and every drawn sample `p`, the strategy always terminates successfully with
a valid branch index and that branch's weight; and when the cumulative weight
never exceeds `p` (the floating-point rounding case, `ws.sum ≤ p`), the
selected branch is the single highest-weight branch computed so far (the first
index attaining the strict running maximum, exactly as the loop's
`fallback_weight_index` tracks it). -/
theorem channel_sampling_fallback (ws : List ℚ) (p : ℚ)
    (hne : ws ≠ []) (hnn : ∀ x ∈ ws, 0 ≤ x) :
    (∃ i w, selectKraus ws p = some (i, w) ∧ i < ws.length ∧ w = ws.getD i 0) ∧
    (ws.sum ≤ p →
      ∃ i w, selectKraus ws p = some (i, w) ∧ i < ws.length ∧
        ws.getD i 0 = w ∧ (∀ j, j < ws.length → ws.getD j 0 ≤ w) ∧
        ∀ j, j < i → ws.getD j 0 < w) ∧
    (0 ≤ p → ∀ i w, selectKraus ws p = some (i, w) → w = 0 → ws.sum ≤ p) := by
  refine ⟨?_, ?_, fun hp i w h hw => selectKraus_zero_weight ws p hp i w h hw⟩
  · obtain ⟨i, w, h⟩ := selectKraus_isSome ws p hne
    obtain ⟨h1, h2⟩ := selectKraus_sound ws p i w hnn h
    exact ⟨i, w, h, h1, h2⟩
  · intro hsum
    match ws, hne, hnn, hsum with
    | w0 :: rest, _, hnn, hsum =>
      obtain ⟨pr, suf, hne', happ, hfb, hidx, hwt, hpf, hbr, hpart⟩ :=
        krausLoop_spec rest w0 0 p 0 0
      have hsufnn : 0 ≤ suf.sum := by
        apply List.sum_nonneg
        intro x hx
        exact hnn x (by rw [happ]; exact List.mem_append_right _ hx)
      have hsum' : pr.sum + suf.sum = (w0 :: rest).sum := by
        rw [happ, List.sum_append]
      have hpf' : 0 ≤ (krausLoop w0 rest 0 p 0 0).pFinal := by
        rw [hpf]; linarith
      have hsuf : suf = [] := by
        rcases hbr with h | h
        · exact h
        · linarith
      have hpr : pr = w0 :: rest := by
        have := happ
        rw [hsuf, List.append_nil] at this
        exact this.symm
      have hsel : selectKraus (w0 :: rest) p =
          some ((runFb pr 0 0 0).2, (runFb pr 0 0 0).1) := by
        rw [selectKraus, if_pos (Or.inl hpf'), ← hfb]
      obtain ⟨hle, hub, hcase⟩ := runFb_spec pr 0 0 0
      rw [hpr] at hsel hub hcase
      rcases hcase with ⟨hW0, hI0⟩ | ⟨k, hk, hIk, hWk, _, hstrict⟩
      · refine ⟨(runFb (w0 :: rest) 0 0 0).2, (runFb (w0 :: rest) 0 0 0).1,
          hsel, ?_, ?_, ?_, ?_⟩
        · rw [hI0]; simp
        · rw [hI0, hW0]
          have ha := hnn w0 (List.mem_cons_self _ _)
          have hb := hub w0 (List.mem_cons_self _ _)
          rw [hW0] at hb
          simp only [List.getD_cons_zero]
          linarith
        · intro j hj
          exact hub _ (getD_mem (w0 :: rest) 0 j hj)
        · intro j hj
          rw [hI0] at hj
          omega
      · refine ⟨(runFb (w0 :: rest) 0 0 0).2, (runFb (w0 :: rest) 0 0 0).1,
          hsel, ?_, ?_, ?_, ?_⟩
        · rw [hIk]; omega
        · rw [hIk, hWk]
          simp only [Nat.zero_add]
        · intro j hj
          exact hub _ (getD_mem (w0 :: rest) 0 j hj)
        · intro j hj
          rw [hIk] at hj
          exact hstrict j (by omega)

/-- Witness for C1: the 3-branch channel with computed weights
`[0.499999, 0.3, 0.2]` (summing to `0.999999` — the engineered rounding
scenario where the cumulative mass never exceeds `p = 0.999999`): the fallback
selects the highest-weight branch, index 0, rather than failing. -/
theorem channel_sampling_fallback_witness :
    (∃ i w,
      selectKraus [(499999 : ℚ)/1000000, 3/10, 1/5] (999999/1000000) =
        some (i, w) ∧
      i < 3 ∧ [(499999 : ℚ)/1000000, 3/10, 1/5].getD i 0 = w ∧
      (∀ j, j < 3 → [(499999 : ℚ)/1000000, 3/10, 1/5].getD j 0 ≤ w) ∧
      ∀ j, j < i → [(499999 : ℚ)/1000000, 3/10, 1/5].getD j 0 < w) ∧
    selectKraus [(499999 : ℚ)/1000000, 3/10, 1/5] (999999/1000000) =
      some (0, (499999 : ℚ)/1000000) := by
  constructor
  · have h := (channel_sampling_fallback [(499999 : ℚ)/1000000, 3/10, 1/5]
      (999999/1000000) (by simp)
      (by intro x hx; simp only [List.mem_cons, List.not_mem_nil, or_false] at hx
          rcases hx with h | h | h <;> rw [h] <;> norm_num)).2.1 (by norm_num)
    simpa using h
  · norm_num [selectKraus, krausLoop]

/-! ### Operator-application strategy chain

Embeds `ActOnStateVectorArgs._act_on_fallback_` (act_on_state_vector_args.py,
lines 168-194).  An operation is abstracted to its capability surface: whether
the unitary-application strategy accepts it (`protocols.apply_unitary` with
`allow_decompose=False` succeeds), whether `protocols.mixture` returns a
mixture, whether `protocols.kraus` returns Kraus operators, and its
decomposition (`none` when the operation does not decompose).  Modelled from
the spec for the decomposition strategy (`strat_act_on_from_apply_decompose`
lives in `act_on_args.py`, outside the excerpt): the operation is decomposed
and each sub-operation goes through the full chain recursively. -/

inductive SimAction : Type where
  | mk (hasUnitary hasMixture hasKraus : Bool) (subOps : Option (List SimAction))

mutual

/-- The strategy chain: strategies are tried in the fixed order unitary (0),
mixture (1), channel (2), then — only when `allowDecompose` — decomposition
(3).  Success returns the index of the consuming strategy; failure returns the
offending action (the payload of the raised `TypeError`). -/
def applyChain : SimAction → Bool → Except SimAction Nat
  | a@(.mk u m k sub), ad =>
    if u then .ok 0
    else if m then .ok 1
    else if k then .ok 2
    else
      match ad, sub with
      | true, some ops =>
        match applyAll ops with
        | .ok _ => .ok 3
        | .error x => .error x
      | _, _ => .error a

/-- Each sub-operation of a decomposition goes through the full chain
(recursively, with decomposition allowed); the first failure propagates. -/
def applyAll : List SimAction → Except SimAction Unit
  | [] => .ok ()
  | x :: xs =>
    match applyChain x true with
    | .ok _ => applyAll xs
    | .error e => .error e

end

/-- Spec-side acceptance: an operation is accepted when some strategy in the
chain accepts it, or it decomposes into sub-operations that are all
(recursively) accepted. -/
inductive Accepts : SimAction → Prop where
  | ofUnitary (m k : Bool) (s : Option (List SimAction)) :
      Accepts (.mk true m k s)
  | ofMixture (u k : Bool) (s : Option (List SimAction)) :
      Accepts (.mk u true k s)
  | ofKraus (u m : Bool) (s : Option (List SimAction)) :
      Accepts (.mk u m true s)
  | ofDecompose (u m k : Bool) (ops : List SimAction) :
      (∀ op ∈ ops, Accepts op) → Accepts (.mk u m k (some ops))

/-- The first strategy in the fixed priority order whose capability test
passes (3 = decomposition). -/
def firstStrat : SimAction → Nat
  | .mk u m k _ => if u then 0 else if m then 1 else if k then 2 else 3

theorem applyAll_ok_iff (ops : List SimAction) :
    applyAll ops = .ok () ↔ ∀ op ∈ ops, ∃ i, applyChain op true = .ok i := by
  induction ops with
  | nil => simp [applyAll]
  | cons x xs ih =>
    rw [applyAll]
    cases h : applyChain x true with
    | ok i => simp [h, ih]
    | error e => simp [h]

theorem applyAll_error (ops : List SimAction) (x : SimAction)
    (h : applyAll ops = .error x) :
    ∃ op ∈ ops, applyChain op true = .error x := by
  induction ops with
  | nil => simp [applyAll] at h
  | cons y ys ih =>
    rw [applyAll] at h
    cases hy : applyChain y true with
    | ok i =>
      rw [hy] at h
      obtain ⟨op, h1, h2⟩ := ih h
      exact ⟨op, List.mem_cons_of_mem _ h1, h2⟩
    | error e =>
      rw [hy] at h
      injection h with h'
      exact ⟨y, List.mem_cons_self _ _, by rw [hy, h']⟩

theorem sizeOf_lt_of_mem_subOps {op : SimAction} {ops : List SimAction}
    (u m k : Bool) (h : op ∈ ops) :
    sizeOf op < sizeOf (SimAction.mk u m k (some ops)) := by
  have h1 := List.sizeOf_lt_of_mem h
  simp only [SimAction.mk.sizeOf_spec, Option.some.sizeOf_spec]
  omega

theorem applyChain_hasU (m k : Bool) (sub : Option (List SimAction)) (ad : Bool) :
    applyChain (.mk true m k sub) ad = .ok 0 := rfl

theorem applyChain_hasM (k : Bool) (sub : Option (List SimAction)) (ad : Bool) :
    applyChain (.mk false true k sub) ad = .ok 1 := rfl

theorem applyChain_hasK (sub : Option (List SimAction)) (ad : Bool) :
    applyChain (.mk false false true sub) ad = .ok 2 := rfl

theorem applyChain_none (ad : Bool) :
    applyChain (.mk false false false none) ad =
      .error (.mk false false false none) := by
  cases ad <;> rfl

theorem applyChain_decompose (ops : List SimAction) :
    applyChain (.mk false false false (some ops)) true =
      (match applyAll ops with
        | .ok _ => .ok 3
        | .error x => .error x) := rfl

theorem applyChain_noDecompose (sub : Option (List SimAction)) :
    applyChain (.mk false false false sub) false =
      .error (.mk false false false sub) := by
  cases sub <;> rfl

theorem not_accepts_bare (sub : Option (List SimAction)) (hsub : sub = none) :
    ¬ Accepts (.mk false false false sub) := by
  subst hsub
  intro h
  cases h

theorem chain_ok_iff_accepts (a : SimAction) :
    (∃ i, applyChain a true = .ok i) ↔ Accepts a := by
  generalize hn : sizeOf a = n
  induction n using Nat.strong_induction_on generalizing a with
  | _ n ih =>
    obtain ⟨u, m, k, sub⟩ := a
    by_cases hu : u
    · subst hu
      exact ⟨fun _ => Accepts.ofUnitary m k sub,
        fun _ => ⟨0, applyChain_hasU m k sub true⟩⟩
    · simp only [Bool.not_eq_true] at hu
      subst hu
      by_cases hm : m
      · subst hm
        exact ⟨fun _ => Accepts.ofMixture false k sub,
          fun _ => ⟨1, applyChain_hasM k sub true⟩⟩
      · simp only [Bool.not_eq_true] at hm
        subst hm
        by_cases hk : k
        · subst hk
          exact ⟨fun _ => Accepts.ofKraus false false sub,
            fun _ => ⟨2, applyChain_hasK sub true⟩⟩
        · simp only [Bool.not_eq_true] at hk
          subst hk
          cases sub with
          | none =>
            constructor
            · rintro ⟨i, hi⟩
              rw [applyChain_none] at hi
              exact absurd hi (by simp)
            · intro h
              exact absurd h (not_accepts_bare none rfl)
          | some ops =>
            have hsub : ∀ op ∈ ops,
                ((∃ i, applyChain op true = .ok i) ↔ Accepts op) := by
              intro op hop
              exact ih (sizeOf op)
                (hn ▸ sizeOf_lt_of_mem_subOps false false false hop) op rfl
            constructor
            · rintro ⟨i, hi⟩
              rw [applyChain_decompose] at hi
              cases hall : applyAll ops with
              | ok v =>
                refine Accepts.ofDecompose false false false ops ?_
                intro op hop
                exact (hsub op hop).mp ((applyAll_ok_iff ops).mp
                  (by cases v; exact hall) op hop)
              | error e =>
                rw [hall] at hi
                exact absurd hi (by simp)
            · intro h
              have hall : ∀ op ∈ ops, ∃ i, applyChain op true = .ok i := by
                cases h with
                | ofDecompose _ _ _ _ hops =>
                  intro op hop
                  exact (hsub op hop).mpr (hops op hop)
              refine ⟨3, ?_⟩
              rw [applyChain_decompose, (applyAll_ok_iff ops).mpr hall]

theorem chain_error_not_accepts (a : SimAction) :
    ∀ x, applyChain a true = .error x → ¬ Accepts x := by
  generalize hn : sizeOf a = n
  induction n using Nat.strong_induction_on generalizing a with
  | _ n ih =>
    obtain ⟨u, m, k, sub⟩ := a
    intro x hx
    by_cases hu : u
    · subst hu
      rw [applyChain_hasU] at hx
      exact absurd hx (by simp)
    · simp only [Bool.not_eq_true] at hu
      subst hu
      by_cases hm : m
      · subst hm
        rw [applyChain_hasM] at hx
        exact absurd hx (by simp)
      · simp only [Bool.not_eq_true] at hm
        subst hm
        by_cases hk : k
        · subst hk
          rw [applyChain_hasK] at hx
          exact absurd hx (by simp)
        · simp only [Bool.not_eq_true] at hk
          subst hk
          cases sub with
          | none =>
            rw [applyChain_none] at hx
            injection hx with hx'
            subst hx'
            exact not_accepts_bare none rfl
          | some ops =>
            rw [applyChain_decompose] at hx
            cases hall : applyAll ops with
            | ok v =>
              rw [hall] at hx
              exact absurd hx (by simp)
            | error e =>
              rw [hall] at hx
              injection hx with hx'
              subst hx'
              obtain ⟨op, hop, herr⟩ := applyAll_error ops e hall
              exact ih (sizeOf op)
                (hn ▸ sizeOf_lt_of_mem_subOps false false false hop) op rfl e herr

/-- **C3.** For every operation applied to a dense-tensor representation, the
strategies are attempted in the fixed priority order unitary (0), mixture (1),
channel (2), decomposition (3) — the consuming strategy is always the first
whose capability test passes — with each sub-operation of a decomposition
recursing through the full chain; and the chain raises an error naming an
offending operation if and only if no strategy and no further decomposition
accepts the operation. -/
theorem strategy_chain_correct (a : SimAction) :
    ((∃ i, applyChain a true = .ok i) ↔ Accepts a) ∧
    (∀ i, applyChain a true = .ok i → i = firstStrat a) ∧
    ((∃ x, applyChain a true = .error x) ↔ ¬ Accepts a) ∧
    (∀ x, applyChain a true = .error x → ¬ Accepts x) := by
  refine ⟨chain_ok_iff_accepts a, ?_, ?_, chain_error_not_accepts a⟩
  · intro i hi
    obtain ⟨u, m, k, sub⟩ := a
    rw [firstStrat]
    by_cases hu : u
    · subst hu
      rw [applyChain_hasU] at hi
      injection hi with h'
      simp [← h']
    · simp only [Bool.not_eq_true] at hu
      subst hu
      by_cases hm : m
      · subst hm
        rw [applyChain_hasM] at hi
        injection hi with h'
        simp [← h']
      · simp only [Bool.not_eq_true] at hm
        subst hm
        by_cases hk : k
        · subst hk
          rw [applyChain_hasK] at hi
          injection hi with h'
          simp [← h']
        · simp only [Bool.not_eq_true] at hk
          subst hk
          cases sub with
          | none =>
            rw [applyChain_none] at hi
            exact absurd hi (by simp)
          | some ops =>
            rw [applyChain_decompose] at hi
            cases hall : applyAll ops with
            | ok v =>
              rw [hall] at hi
              injection hi with h'
              simp [← h']
            | error e =>
              rw [hall] at hi
              exact absurd hi (by simp)
  · constructor
    · rintro ⟨x, hx⟩ hacc
      obtain ⟨i, hi⟩ := (chain_ok_iff_accepts a).mpr hacc
      rw [hx] at hi
      exact absurd hi (by simp)
    · intro hacc
      cases hr : applyChain a true with
      | ok i => exact absurd ((chain_ok_iff_accepts a).mp ⟨i, hr⟩) hacc
      | error x => exact ⟨x, rfl⟩

/-! ### Entanglement-tracking container

Embeds `ActOnArgsContainer` (act_on_args_container.py).  Qubits are natural
numbers; a representation instance is identified by a numeric handle, standing
for Python object identity (fresh handles play the role of newly allocated
objects).  The container keeps the canonical qubit tuple, the `args` mapping
from qubit to owning instance, and each instance's ordered qubit sequence.
Payloads (tensors/tableaus) do not affect the partition bookkeeping and are
not modelled.  The qubit-sequence semantics of the `ActOnArgs` helpers —
`kronecker_product` (fresh instance over the concatenated qubit order),
`factor` (fresh extracted and remainder instances), `swap` and `rename`
(axis/identity relabelling in place) — are modelled from the spec, because
`act_on_args.py` is outside the excerpt. -/

structure Container where
  qubits : List Nat
  owner : Nat → Nat
  repQ : Nat → List Nat
  nextId : Nat
  split : Bool
  allowsFactoring : Bool
  ignoreMeas : Bool

/-- The gate information `_act_on_fallback_` dispatches on. -/
inductive ContGate : Type where
  | identity
  | swapPow (oddExp shiftZero : Bool)
  | reset
  | measurement
  | other

/-- A single dict entry assignment `self.args[q] = r`. -/
def setOwner (f : Nat → Nat) (q r : Nat) : Nat → Nat :=
  fun x => if x = q then r else f x

/-- The backfill loops (`for q in op_args.qubits: self.args[q] = op_args`). -/
def backfill (f : Nat → Nat) (qs : List Nat) (r : Nat) : Nat → Nat :=
  qs.foldl (fun g q => setOwner g q r) f

/-- Recording a (fresh) instance handle's qubit sequence. -/
def setRep (g : Nat → List Nat) (r : Nat) (l : List Nat) : Nat → List Nat :=
  fun x => if x = r then l else g x

structure MergeSt where
  acc : Option (Nat × List Nat)
  repQ : Nat → List Nat
  nextId : Nat

/-- One iteration of the merge loop (lines 113-118):
`if op_args_opt is None: op_args_opt = self.args[q]`, and otherwise, when `q`
is not already among the accumulated qubits,
`op_args_opt = op_args_opt.kronecker_product(self.args[q])` — a fresh instance
over the concatenated qubit sequence. -/
def mergeStep (owner : Nat → Nat) (s : MergeSt) (q : Nat) : MergeSt :=
  match s.acc with
  | none => { s with acc := some (owner q, s.repQ (owner q)) }
  | some (rid, ql) =>
    if q ∈ ql then ⟨some (rid, ql), s.repQ, s.nextId⟩
    else
      ⟨some (s.nextId, ql ++ s.repQ (owner q)),
        setRep s.repQ s.nextId (ql ++ s.repQ (owner q)),
        s.nextId + 1⟩

def mergeLoop (c : Container) (qs : List Nat) : MergeSt :=
  qs.foldl (mergeStep c.owner) ⟨none, c.repQ, c.nextId⟩

structure SplitSt where
  rid : Nat
  ql : List Nat
  owner : Nat → Nat
  repQ : Nat → List Nat
  nextId : Nat

/-- One iteration of the decoupling loop (lines 134-137): when the
representation allows factoring,
`q_args, op_args = op_args.factor((q,), validate=False)` makes a fresh
single-qubit instance for `q`, immediately mapped (`self.args[q] = q_args`),
and a fresh remainder instance over the remaining qubits. -/
def splitStep (allows : Bool) (s : SplitSt) (q : Nat) : SplitSt :=
  if allows then
    ⟨s.nextId + 1, s.ql.erase q,
      setOwner s.owner q s.nextId,
      setRep (setRep s.repQ s.nextId [q]) (s.nextId + 1) (s.ql.erase q),
      s.nextId + 2⟩
  else s

/-- Lines 130-133: the decoupling condition — a reset, or a basis measurement
whose results are not suppressed. -/
def unentangles (c : Container) (g : ContGate) : Bool :=
  match g with
  | .reset => true
  | .measurement => !c.ignoreMeas
  | _ => false

/-- The container after the merge loop and the first backfill
(`for q in op_args.qubits: self.args[q] = op_args`). -/
def mergedC (c : Container) (qs : List Nat) (rid : Nat) (ql : List Nat) :
    Container :=
  let ms := mergeLoop c qs
  { c with owner := backfill c.owner ql rid, repQ := ms.repQ, nextId := ms.nextId }

/-- The decoupling loop (`for q in qubits: if op_args.allows_factoring: ...`),
run against the just-mutated merged instance. -/
def splitFold (c : Container) (qs : List Nat) (rid : Nat) (ql : List Nat) :
    SplitSt :=
  qs.foldl (splitStep c.allowsFactoring)
    ⟨rid, ql, (mergedC c qs rid ql).owner, (mergedC c qs rid ql).repQ,
      (mergedC c qs rid ql).nextId⟩

/-- The container after the decoupling loop and the final backfill. -/
def splitC (c : Container) (qs : List Nat) (rid : Nat) (ql : List Nat) :
    Container :=
  let s := splitFold c qs rid ql
  { c with owner := backfill s.owner s.ql s.rid, repQ := s.repQ,
           nextId := s.nextId }

/-- The general path of `_act_on_fallback_` (lines 111-142): merge the
instances owning the target qubits, backfill the mapping over the merged
instance's qubits, act on the instance (a payload mutation — no partition
change), then optionally decouple measured/reset qubits, backfilling the final
remainder. -/
def stepGeneric (c : Container) (g : ContGate) (qs : List Nat) : Container :=
  match (mergeLoop c qs).acc with
  | none => c
  | some (rid, ql) =>
    if c.split && unentangles c g then splitC c qs rid ql
    else mergedC c qs rid ql

/-- The transposition of the two qubit identities `a` and `b`. -/
def swapFn (a b x : Nat) : Nat :=
  if x = a then b else if x = b then a else x

/-- `ActOnArgs.swap(q0, q1, inplace=True)`, modelled from the spec: permute
the two qubits' axis bookkeeping inside one instance. -/
def swapElems (l : List Nat) (a b : Nat) : List Nat :=
  l.map (swapFn a b)

/-- `ActOnArgs.rename(a, b, inplace=True)`, modelled from the spec: relabel
qubit identity `a` as `b` inside the instance. -/
def renameElem (l : List Nat) (a b : Nat) : List Nat :=
  l.map (fun x => if x = a then b else x)

/-- The SwapPowGate fast path (lines 100-109): same instance — permute axis
bookkeeping in place; different instances — rename in place and exchange which
instance owns which qubit identity. -/
def stepSwap (c : Container) (q0 q1 : Nat) : Container :=
  let r0 := c.owner q0
  let r1 := c.owner q1
  if r0 = r1 then
    { c with repQ := setRep c.repQ r0 (swapElems (c.repQ r0) q0 q1) }
  else
    { c with
      owner := setOwner (setOwner c.owner q0 r1) q1 r0,
      repQ := setRep (setRep c.repQ r1 (renameElem (c.repQ r1) q1 q0)) r0
          (renameElem (c.repQ r0) q0 q1) }

structure ContOp where
  gate : ContGate
  qs : List Nat

/-- `isinstance(gate, SwapPowGate) and gate.exponent % 2 == 1 and
gate.global_shift == 0`. -/
def swapFastPath : ContGate → Bool
  | .swapPow oddExp shiftZero => oddExp && shiftZero
  | _ => false

/-- Whether the gate is an `IdentityGate`. -/
def isIdentity : ContGate → Bool
  | .identity => true
  | _ => false

/-- `ActOnArgsContainer._act_on_fallback_` for one operation.  `actRec` is the
abstract list of records that `protocols.act_on` appends to the classical data
log while acting on the payload (measurement outcomes, channel branch
indices); the identity and swap fast paths return before any `act_on`. -/
def stepOp (actRec : ContGate → List Nat → List (String × Nat))
    (c : Container) (op : ContOp) : Container × List (String × Nat) :=
  if isIdentity op.gate then (c, [])
  else if swapFastPath op.gate then
    match op.qs with
    | [q0, q1] => (stepSwap c q0 q1, [])
    | _ => (c, [])
  else (stepGeneric c op.gate op.qs, actRec op.gate op.qs)

def stepOps (actRec : ContGate → List Nat → List (String × Nat))
    (c : Container) (ops : List ContOp) : Container :=
  ops.foldl (fun c' op => (stepOp actRec c' op).1) c

/-- The partition invariant on the container: every qubit's owning instance
contains it, instance qubit sequences are duplicate-free subsets of the
canonical qubit set, ownership is consistent across an instance's qubits, and
in-use handles are below `nextId`. -/
def Inv (c : Container) : Prop :=
  c.qubits.Nodup ∧
  (∀ q ∈ c.qubits, c.owner q < c.nextId) ∧
  (∀ q ∈ c.qubits, q ∈ c.repQ (c.owner q)) ∧
  (∀ q ∈ c.qubits, (c.repQ (c.owner q)).Nodup) ∧
  (∀ q ∈ c.qubits, ∀ q' ∈ c.repQ (c.owner q), q' ∈ c.qubits ∧ c.owner q' = c.owner q)

/-- Deduplication preserving first occurrences, as `dict.fromkeys` does. -/
def firstDedup (l : List Nat) : List Nat :=
  l.foldl (fun acc x => if x ∈ acc then acc else acc ++ [x]) []

/-- The distinct instance handles referenced by the mapping, in first-use
order (`dict.fromkeys(self.args.values())`). -/
def usedIds (c : Container) : List Nat :=
  firstDedup (c.qubits.map c.owner)

/-- The spec's partition property: the union of the qubit sets of the distinct
instances in the mapping covers the full qubit set exactly once — no qubit
owned by two distinct instances, no qubit unowned. -/
def PartitionProp (c : Container) : Prop :=
  (∀ q ∈ c.qubits, ∃ r ∈ usedIds c, q ∈ c.repQ r) ∧
  (∀ r ∈ usedIds c, ∀ r' ∈ usedIds c, r ≠ r' → ∀ q, q ∈ c.repQ r → q ∉ c.repQ r') ∧
  (∀ r ∈ usedIds c, (c.repQ r).Nodup ∧ ∀ q ∈ c.repQ r, q ∈ c.qubits)

/-- Well-formed operation targets: qubits of the container, no duplicates. -/
def WfOp (c : Container) (op : ContOp) : Prop :=
  (∀ q ∈ op.qs, q ∈ c.qubits) ∧ op.qs.Nodup

theorem setOwner_apply (f : Nat → Nat) (q r x : Nat) :
    setOwner f q r x = if x = q then r else f x := rfl

theorem setRep_apply (g : Nat → List Nat) (r : Nat) (l : List Nat) (x : Nat) :
    setRep g r l x = if x = r then l else g x := rfl

theorem backfill_apply (qs : List Nat) (f : Nat → Nat) (r x : Nat) :
    backfill f qs r x = if x ∈ qs then r else f x := by
  induction qs generalizing f with
  | nil => simp [backfill]
  | cons q qs ih =>
    show backfill (setOwner f q r) qs r x = _
    rw [ih]
    by_cases h1 : x ∈ qs
    · simp [h1]
    · by_cases h2 : x = q <;> simp [h1, h2, setOwner_apply]

theorem firstDedup_mem (l : List Nat) (x : Nat) :
    x ∈ firstDedup l ↔ x ∈ l := by
  suffices h : ∀ acc, x ∈ l.foldl
      (fun acc y => if y ∈ acc then acc else acc ++ [y]) acc ↔ x ∈ acc ∨ x ∈ l by
    simpa [firstDedup] using h []
  induction l with
  | nil => intro acc; simp
  | cons y ys ih =>
    intro acc
    rw [List.foldl_cons]
    by_cases hy : y ∈ acc
    · rw [if_pos hy, ih]
      constructor
      · rintro (h | h)
        · exact Or.inl h
        · exact Or.inr (List.mem_cons_of_mem _ h)
      · rintro (h | h)
        · exact Or.inl h
        · rcases List.mem_cons.mp h with rfl | h'
          · exact Or.inl hy
          · exact Or.inr h'
    · rw [if_neg hy, ih]
      simp only [List.mem_append, List.mem_cons, List.mem_singleton]
      tauto

/-- The per-qubit invariant implies the spec's partition property. -/
theorem inv_implies_partition (c : Container) (hc : Inv c) : PartitionProp c := by
  obtain ⟨hnd, hlt, hmem, hrnd, hcons⟩ := hc
  have hused : ∀ r, r ∈ usedIds c ↔ ∃ q ∈ c.qubits, c.owner q = r := by
    intro r
    rw [usedIds, firstDedup_mem, List.mem_map]
  refine ⟨?_, ?_, ?_⟩
  · intro q hq
    exact ⟨c.owner q, (hused _).mpr ⟨q, hq, rfl⟩, hmem q hq⟩
  · intro r hr r' hr' hne q hqr hqr'
    obtain ⟨a, ha, rfl⟩ := (hused r).mp hr
    obtain ⟨b, hb, rfl⟩ := (hused _).mp hr'
    have h1 := (hcons a ha q hqr).2
    have h2 := (hcons b hb q hqr').2
    exact hne (h1.symm.trans h2)
  · intro r hr
    obtain ⟨a, ha, rfl⟩ := (hused r).mp hr
    exact ⟨hrnd a ha, fun q hq => (hcons a ha q hq).1⟩

/-- Invariant carried through the merge loop: `nextId` only grows, handles of
live old instances keep their qubit sequences, and the accumulated instance
(when present) is fresh-recorded, duplicate-free, and closed under complete
old instances (merges are all-or-nothing per instance). -/
def MergeInv (c : Container) (s : MergeSt) : Prop :=
  c.nextId ≤ s.nextId ∧
  (∀ r, r < c.nextId → s.repQ r = c.repQ r) ∧
  (s.acc = none → s.repQ = c.repQ ∧ s.nextId = c.nextId) ∧
  (∀ rid ql, s.acc = some (rid, ql) →
    rid < s.nextId ∧ s.repQ rid = ql ∧ ql.Nodup ∧
    ∀ q ∈ ql, q ∈ c.qubits ∧ ∀ x ∈ c.repQ (c.owner q), x ∈ ql)

theorem mergeStep_inv (c : Container) (hc : Inv c) (q : Nat) (hq : q ∈ c.qubits)
    (s : MergeSt) (hs : MergeInv c s) :
    MergeInv c (mergeStep c.owner s q) ∧
    (∃ rid ql, (mergeStep c.owner s q).acc = some (rid, ql) ∧ q ∈ ql) ∧
    (∀ rid ql, s.acc = some (rid, ql) →
      ∃ rid' ql', (mergeStep c.owner s q).acc = some (rid', ql') ∧
        ∀ x ∈ ql, x ∈ ql') := by
  obtain ⟨hcnd, hlt, hmem, hrnd, hcons⟩ := hc
  obtain ⟨acc, srep, snext⟩ := s
  obtain ⟨hnle, hpres, hnone, hsome⟩ := hs
  dsimp only at hnle hpres hnone hsome
  cases acc with
  | none =>
    obtain ⟨hrq, hni⟩ := hnone rfl
    subst hrq
    subst hni
    dsimp only [mergeStep, MergeInv]
    refine ⟨⟨le_refl _, fun r _ => rfl, by simp, ?_⟩, ?_, ?_⟩
    · intro rid' ql' h
      simp only [Option.some.injEq, Prod.mk.injEq] at h
      obtain ⟨h1, h2⟩ := h
      subst h1
      subst h2
      refine ⟨hlt q hq, rfl, hrnd q hq, ?_⟩
      intro x hx
      obtain ⟨hx1, hx2⟩ := hcons q hq x hx
      exact ⟨hx1, by rw [hx2]; exact fun y hy => hy⟩
    · exact ⟨c.owner q, c.repQ (c.owner q), rfl, hmem q hq⟩
    · intro rid ql h
      exact absurd h (by simp)
  | some p =>
    obtain ⟨rid, ql⟩ := p
    obtain ⟨hridlt, hrep, hqlnd, hclos⟩ := hsome rid ql rfl
    dsimp only [mergeStep, MergeInv]
    by_cases hql : q ∈ ql
    · rw [if_pos hql]
      dsimp only
      refine ⟨⟨hnle, hpres, by simp, ?_⟩, ⟨rid, ql, rfl, hql⟩, ?_⟩
      · intro rid' ql' h
        simp only [Option.some.injEq, Prod.mk.injEq] at h
        obtain ⟨h1, h2⟩ := h
        subst h1
        subst h2
        exact ⟨hridlt, hrep, hqlnd, hclos⟩
      · intro rid' ql' h
        simp only [Option.some.injEq, Prod.mk.injEq] at h
        obtain ⟨h1, h2⟩ := h
        subst h1
        subst h2
        exact ⟨_, _, rfl, fun x hx => hx⟩
    · rw [if_neg hql]
      dsimp only
      have hown : srep (c.owner q) = c.repQ (c.owner q) := hpres _ (hlt q hq)
      have hdisj : ∀ a, a ∈ ql → a ∈ c.repQ (c.owner q) → False := by
        intro a ha1 ha2
        have h1 := (hcons q hq a ha2).2
        have h2 := (hclos a ha1).2
        rw [h1] at h2
        exact hql (h2 q (hmem q hq))
      refine ⟨⟨by omega, ?_, by simp, ?_⟩, ?_, ?_⟩
      · intro r hr
        rw [setRep_apply, if_neg (by omega)]
        exact hpres r hr
      · intro rid' ql' h
        simp only [Option.some.injEq, Prod.mk.injEq] at h
        obtain ⟨h1, h2⟩ := h
        subst h1
        subst h2
        refine ⟨by omega, by rw [setRep_apply, if_pos rfl], ?_, ?_⟩
        · rw [hown]
          exact List.Nodup.append hqlnd (hrnd q hq) hdisj
        · intro x hx
          rw [hown] at hx
          rcases List.mem_append.mp hx with hx1 | hx2
          · obtain ⟨ha, hb⟩ := hclos x hx1
            exact ⟨ha, fun y hy => List.mem_append_left _ (hb y hy)⟩
          · obtain ⟨ha, hb⟩ := hcons q hq x hx2
            refine ⟨ha, fun y hy => List.mem_append_right _ ?_⟩
            rw [hb] at hy
            rw [hown]
            exact hy
      · exact ⟨snext, ql ++ srep (c.owner q), rfl, by
          rw [hown]; exact List.mem_append_right _ (hmem q hq)⟩
      · intro rid' ql' h
        simp only [Option.some.injEq, Prod.mk.injEq] at h
        obtain ⟨h1, h2⟩ := h
        subst h1
        subst h2
        exact ⟨_, _, rfl, fun x hx => List.mem_append_left _ hx⟩

theorem mergeFold_inv (c : Container) (hc : Inv c) (qs : List Nat) :
    ∀ (s : MergeSt), (∀ q ∈ qs, q ∈ c.qubits) → MergeInv c s →
      MergeInv c (qs.foldl (mergeStep c.owner) s) ∧
      (∀ rid ql, s.acc = some (rid, ql) →
        ∃ rid' ql', (qs.foldl (mergeStep c.owner) s).acc = some (rid', ql') ∧
          ∀ x ∈ ql, x ∈ ql') ∧
      (∀ q ∈ qs, ∃ rid' ql',
        (qs.foldl (mergeStep c.owner) s).acc = some (rid', ql') ∧ q ∈ ql') := by
  induction qs with
  | nil =>
    intro s hq hs
    exact ⟨hs, fun rid ql h => ⟨rid, ql, h, fun x hx => hx⟩, by simp⟩
  | cons q qs ih =>
    intro s hq hs
    simp only [List.foldl_cons]
    obtain ⟨hsi, hsq, hsmono⟩ :=
      mergeStep_inv c hc q (hq q (List.mem_cons_self _ _)) s hs
    obtain ⟨hfi, hfmono, hfall⟩ :=
      ih (mergeStep c.owner s q) (fun x hx => hq x (List.mem_cons_of_mem _ hx)) hsi
    refine ⟨hfi, ?_, ?_⟩
    · intro rid ql h
      obtain ⟨rid', ql', h', hsub⟩ := hsmono rid ql h
      obtain ⟨rid'', ql'', h'', hsub'⟩ := hfmono rid' ql' h'
      exact ⟨rid'', ql'', h'', fun x hx => hsub' x (hsub x hx)⟩
    · intro x hx
      rcases List.mem_cons.mp hx with rfl | hx'
      · obtain ⟨rid, ql, h, hin⟩ := hsq
        obtain ⟨rid', ql', h', hsub⟩ := hfmono rid ql h
        exact ⟨rid', ql', h', hsub _ hin⟩
      · exact hfall x hx'

theorem mergeLoop_initial (c : Container) : MergeInv c ⟨none, c.repQ, c.nextId⟩ :=
  ⟨le_refl _, fun _ _ => rfl, fun _ => ⟨rfl, rfl⟩, fun _ _ h => absurd h (by simp)⟩

theorem mergedC_qubits (c : Container) (qs : List Nat) (rid : Nat)
    (ql : List Nat) : (mergedC c qs rid ql).qubits = c.qubits := rfl

theorem mergedC_owner (c : Container) (qs : List Nat) (rid : Nat)
    (ql : List Nat) :
    (mergedC c qs rid ql).owner = backfill c.owner ql rid := rfl

theorem mergedC_repQ (c : Container) (qs : List Nat) (rid : Nat)
    (ql : List Nat) :
    (mergedC c qs rid ql).repQ = (mergeLoop c qs).repQ := rfl

theorem mergedC_nextId (c : Container) (qs : List Nat) (rid : Nat)
    (ql : List Nat) :
    (mergedC c qs rid ql).nextId = (mergeLoop c qs).nextId := rfl

/-- After the merge loop and backfill: the invariant holds again, every qubit
of the merged instance (targets included) points at the merged instance, the
merge is all-or-nothing per old instance, and untouched qubits are untouched. -/
theorem merge_backfill_spec (c : Container) (hc : Inv c) (qs : List Nat)
    (hqs : ∀ q ∈ qs, q ∈ c.qubits) (rid : Nat) (ql : List Nat)
    (hacc : (mergeLoop c qs).acc = some (rid, ql)) :
    Inv (mergedC c qs rid ql) ∧
    (∀ q ∈ ql, backfill c.owner ql rid q = rid) ∧
    (mergeLoop c qs).repQ rid = ql ∧
    (∀ q ∈ qs, q ∈ ql) ∧
    rid < (mergeLoop c qs).nextId ∧
    c.nextId ≤ (mergeLoop c qs).nextId ∧
    ql.Nodup ∧
    (∀ q ∈ ql, q ∈ c.qubits ∧ ∀ x ∈ c.repQ (c.owner q), x ∈ ql) ∧
    (∀ q, q ∉ ql → backfill c.owner ql rid q = c.owner q) ∧
    (∀ r, r < c.nextId → (mergeLoop c qs).repQ r = c.repQ r) := by
  obtain ⟨hfi, _, hfall⟩ := mergeFold_inv c hc qs _ hqs (mergeLoop_initial c)
  rw [show qs.foldl (mergeStep c.owner) ⟨none, c.repQ, c.nextId⟩ = mergeLoop c qs
    from rfl] at hfi hfall
  obtain ⟨hnle, hpres, _, hsome⟩ := hfi
  obtain ⟨hridlt, hrep, hqlnd, hclos⟩ := hsome rid ql hacc
  have htgt : ∀ q ∈ qs, q ∈ ql := by
    intro q hq
    obtain ⟨rid', ql', h', hin⟩ := hfall q hq
    rw [hacc] at h'
    simp only [Option.some.injEq, Prod.mk.injEq] at h'
    obtain ⟨h1, h2⟩ := h'
    subst h1
    subst h2
    exact hin
  have hbf : ∀ x, backfill c.owner ql rid x = if x ∈ ql then rid else c.owner x :=
    fun x => backfill_apply ql c.owner rid x
  obtain ⟨hcnd, hlt, hmem, hrnd, hcons⟩ := hc
  have hnotin : ∀ q ∈ c.qubits, q ∉ ql →
      ∀ q' ∈ c.repQ (c.owner q), q' ∉ ql := by
    intro q hq hnq q' hq' hq'l
    have h1 := (hcons q hq q' hq').2
    have h2 := (hclos q' hq'l).2
    rw [h1] at h2
    exact hnq (h2 q (hmem q hq))
  refine ⟨⟨hcnd, ?_, ?_, ?_, ?_⟩, ?_, hrep, htgt, hridlt, hnle, hqlnd, hclos, ?_, hpres⟩
  · intro q hq
    simp only [mergedC_owner, mergedC_nextId]
    rw [hbf]
    by_cases hql : q ∈ ql
    · rw [if_pos hql]; exact hridlt
    · rw [if_neg hql]; exact lt_of_lt_of_le (hlt q hq) hnle
  · intro q hq
    simp only [mergedC_owner, mergedC_repQ]
    rw [hbf]
    by_cases hql : q ∈ ql
    · rw [if_pos hql, hrep]; exact hql
    · rw [if_neg hql, hpres _ (hlt q hq)]; exact hmem q hq
  · intro q hq
    simp only [mergedC_owner, mergedC_repQ]
    rw [hbf]
    by_cases hql : q ∈ ql
    · rw [if_pos hql, hrep]; exact hqlnd
    · rw [if_neg hql, hpres _ (hlt q hq)]; exact hrnd q hq
  · intro q hq q' hq'
    simp only [mergedC_owner, mergedC_repQ,
      mergedC_qubits] at hq' ⊢
    rw [hbf] at hq'
    by_cases hql : q ∈ ql
    · rw [if_pos hql, hrep] at hq'
      refine ⟨(hclos q' hq').1, ?_⟩
      rw [hbf, hbf, if_pos hq', if_pos hql]
    · rw [if_neg hql, hpres _ (hlt q hq)] at hq'
      have hq'nl : q' ∉ ql := hnotin q hq hql q' hq'
      obtain ⟨ha, hb⟩ := hcons q hq q' hq'
      refine ⟨ha, ?_⟩
      rw [hbf, hbf, if_neg hq'nl, if_neg hql]
      exact hb
  · intro q hq
    rw [hbf, if_pos hq]
  · intro q hq
    rw [hbf, if_neg hq]

/-- Pointwise congruence for the invariant. -/
theorem inv_congr (c c' : Container) (hq : c'.qubits = c.qubits)
    (ho : ∀ x, c'.owner x = c.owner x) (hr : ∀ r, c'.repQ r = c.repQ r)
    (hn : c'.nextId = c.nextId) (hc : Inv c) : Inv c' := by
  obtain ⟨h1, h2, h3, h4, h5⟩ := hc
  refine ⟨by rw [hq]; exact h1, ?_, ?_, ?_, ?_⟩
  · intro q hqm
    rw [hq] at hqm
    rw [ho, hn]
    exact h2 q hqm
  · intro q hqm
    rw [hq] at hqm
    rw [ho, hr]
    exact h3 q hqm
  · intro q hqm
    rw [hq] at hqm
    rw [ho, hr]
    exact h4 q hqm
  · intro q hqm q' hq'
    rw [hq] at hqm
    rw [ho, hr] at hq'
    obtain ⟨ha, hb⟩ := h5 q hqm q' hq'
    exact ⟨by rw [hq]; exact ha, by rw [ho, ho]; exact hb⟩

/-- Invariant carried through the decoupling loop: `pr` lists the already
factored target qubits; each owns a fresh singleton instance, the remainder
instance carries exactly the unfactored qubits, and untouched qubits keep
their owners. -/
def SplitInv (c1 : Container) (L : List Nat) (pr : List Nat)
    (s : SplitSt) : Prop :=
  c1.nextId ≤ s.nextId ∧
  (∀ r, r < c1.nextId → s.repQ r = c1.repQ r) ∧
  s.repQ s.rid = s.ql ∧
  s.rid < s.nextId ∧
  (∀ x, x ∈ s.ql ↔ (x ∈ L ∧ x ∉ pr)) ∧
  s.ql.Nodup ∧
  (∀ q ∈ pr, c1.nextId ≤ s.owner q ∧ s.owner q < s.nextId ∧
    s.repQ (s.owner q) = [q] ∧ s.owner q ≠ s.rid) ∧
  (∀ q, q ∉ pr → s.owner q = c1.owner q)

theorem splitStep_inv (c1 : Container) (L : List Nat) (pr : List Nat)
    (s : SplitSt) (q : Nat) (hs : SplitInv c1 L pr s) (hqL : q ∈ L)
    (hqpr : q ∉ pr) :
    SplitInv c1 L (pr ++ [q]) (splitStep true s q) := by
  obtain ⟨srid, sql, sown, srep, snext⟩ := s
  obtain ⟨hnle, hpres, hrep, hrlt, hmemq, hqlnd, hpr, hnotpr⟩ := hs
  dsimp only at hnle hpres hrep hrlt hmemq hqlnd hpr hnotpr
  dsimp only [splitStep, SplitInv]
  rw [if_pos rfl]
  dsimp only
  have hq_in : q ∈ sql := (hmemq q).mpr ⟨hqL, hqpr⟩
  refine ⟨by omega, ?_, ?_, by omega, ?_, hqlnd.erase q, ?_, ?_⟩
  · intro r hr
    rw [setRep_apply, if_neg (by omega), setRep_apply, if_neg (by omega)]
    exact hpres r hr
  · dsimp only
    rw [setRep_apply, if_pos rfl]
  · intro x
    rw [hqlnd.mem_erase_iff, hmemq x]
    simp only [List.mem_append, List.mem_singleton]
    constructor
    · rintro ⟨hne, hL', hpr'⟩
      exact ⟨hL', by rintro (h | h) <;> [exact hpr' h; exact hne h]⟩
    · rintro ⟨hL', hno⟩
      exact ⟨fun h => hno (Or.inr h), hL', fun h => hno (Or.inl h)⟩
  · intro q'' hq''
    rcases List.mem_append.mp hq'' with hin | hin
    · have hne : q'' ≠ q := fun h => hqpr (h ▸ hin)
      obtain ⟨ha, hb, hcr, hd⟩ := hpr q'' hin
      rw [setOwner_apply, if_neg hne]
      refine ⟨ha, by omega, ?_, by omega⟩
      rw [setRep_apply, if_neg (by omega), setRep_apply, if_neg (by omega)]
      exact hcr
    · rw [List.mem_singleton] at hin
      subst hin
      rw [setOwner_apply, if_pos rfl]
      refine ⟨hnle, by omega, ?_, by omega⟩
      rw [setRep_apply, if_neg (by omega), setRep_apply, if_pos rfl]
  · intro q'' hq''
    have h1 : q'' ∉ pr := fun h => hq'' (List.mem_append_left _ h)
    have h2 : q'' ≠ q := fun h => hq'' (List.mem_append_right _ (by simp [h]))
    rw [setOwner_apply, if_neg h2]
    exact hnotpr q'' h1

theorem splitFold_inv (c1 : Container) (L : List Nat) :
    ∀ (qsp pr : List Nat) (s : SplitSt), qsp.Nodup →
      (∀ q ∈ qsp, q ∈ L ∧ q ∉ pr) → SplitInv c1 L pr s →
      SplitInv c1 L (pr ++ qsp) (qsp.foldl (splitStep true) s) := by
  intro qsp
  induction qsp with
  | nil =>
    intro pr s _ _ hs
    rw [List.append_nil]
    simpa using hs
  | cons q qsp ih =>
    intro pr s hnd hq hs
    simp only [List.foldl_cons]
    have h1 := splitStep_inv c1 L pr s q hs (hq q (List.mem_cons_self _ _)).1
      (hq q (List.mem_cons_self _ _)).2
    have hnd' := (List.nodup_cons.mp hnd).2
    have hqn := (List.nodup_cons.mp hnd).1
    have h2 := ih (pr ++ [q]) (splitStep true s q) hnd' ?_ h1
    · rw [List.append_assoc, List.singleton_append] at h2
      exact h2
    · intro x hx
      refine ⟨(hq x (List.mem_cons_of_mem _ hx)).1, ?_⟩
      intro hmem
      rcases List.mem_append.mp hmem with h | h
      · exact (hq x (List.mem_cons_of_mem _ hx)).2 h
      · rw [List.mem_singleton] at h
        exact hqn (h ▸ hx)

/-- The container after the decoupling loop and final backfill, relative to
the merged container. -/
def postSplitC (c1 : Container) (s : SplitSt) : Container :=
  { c1 with owner := backfill s.owner s.ql s.rid, repQ := s.repQ, nextId := s.nextId }

theorem splitC_eq_postSplitC (c : Container) (qs : List Nat) (rid : Nat)
    (ql : List Nat) :
    splitC c qs rid ql = postSplitC (mergedC c qs rid ql) (splitFold c qs rid ql) :=
  rfl

/-- Assembling the invariant after the decoupling loop: each factored target
owns a fresh single-qubit instance, the remainder holds exactly the unfactored
merged qubits, and untouched qubits are untouched. -/
theorem split_final_spec (c1 : Container) (hc1 : Inv c1) (rid : Nat)
    (L : List Nat) (hL : c1.repQ rid = L) (hOwn : ∀ q ∈ L, c1.owner q = rid)
    (hLsub : ∀ x ∈ L, x ∈ c1.qubits) (qsp : List Nat)
    (hq : ∀ q ∈ qsp, q ∈ c1.qubits) (hqsL : ∀ q ∈ qsp, q ∈ L) (s : SplitSt)
    (hs : SplitInv c1 L qsp s) :
    Inv (postSplitC c1 s) ∧
    (∀ q ∈ qsp, (postSplitC c1 s).owner q = s.owner q ∧
      (postSplitC c1 s).repQ ((postSplitC c1 s).owner q) = [q] ∧
      c1.nextId ≤ (postSplitC c1 s).owner q) := by
  obtain ⟨hnd1, hlt1, hmem1, hrnd1, hcons1⟩ := hc1
  obtain ⟨hnle, hpres, hrep, hrlt, hmemq, hqlnd, hpr, hnotpr⟩ := hs
  have hbf : ∀ x, (postSplitC c1 s).owner x =
      if x ∈ s.ql then s.rid else s.owner x := by
    intro x
    exact backfill_apply s.ql s.owner s.rid x
  have hqsp_not_ql : ∀ q ∈ qsp, q ∉ s.ql := by
    intro q hq' hmem
    exact ((hmemq q).mp hmem).2 hq'
  have hpayload : ∀ q ∈ qsp, (postSplitC c1 s).owner q = s.owner q ∧
      (postSplitC c1 s).repQ ((postSplitC c1 s).owner q) = [q] ∧
      c1.nextId ≤ (postSplitC c1 s).owner q := by
    intro q hq'
    have h1 : (postSplitC c1 s).owner q = s.owner q := by
      rw [hbf, if_neg (hqsp_not_ql q hq')]
    obtain ⟨ha, hb, hcr, hd⟩ := hpr q hq'
    exact ⟨h1, by rw [h1]; exact hcr, by rw [h1]; exact ha⟩
  refine ⟨⟨hnd1, ?_, ?_, ?_, ?_⟩, hpayload⟩
  · intro q hqm
    rw [hbf]
    by_cases hql : q ∈ s.ql
    · rw [if_pos hql]
      exact hrlt
    · rw [if_neg hql]
      by_cases hqsp : q ∈ qsp
      · exact (hpr q hqsp).2.1
      · rw [hnotpr q hqsp]
        exact lt_of_lt_of_le (hlt1 q hqm) hnle
  · intro q hqm
    rw [hbf]
    by_cases hql : q ∈ s.ql
    · rw [if_pos hql]
      show q ∈ s.repQ s.rid
      rw [hrep]
      exact hql
    · rw [if_neg hql]
      by_cases hqsp : q ∈ qsp
      · show q ∈ s.repQ (s.owner q)
        rw [(hpr q hqsp).2.2.1]
        exact List.mem_singleton.mpr rfl
      · show q ∈ s.repQ (s.owner q)
        rw [hnotpr q hqsp, hpres _ (hlt1 q hqm)]
        exact hmem1 q hqm
  · intro q hqm
    rw [hbf]
    by_cases hql : q ∈ s.ql
    · rw [if_pos hql]
      show (s.repQ s.rid).Nodup
      rw [hrep]
      exact hqlnd
    · rw [if_neg hql]
      by_cases hqsp : q ∈ qsp
      · show (s.repQ (s.owner q)).Nodup
        rw [(hpr q hqsp).2.2.1]
        exact List.nodup_singleton q
      · show (s.repQ (s.owner q)).Nodup
        rw [hnotpr q hqsp, hpres _ (hlt1 q hqm)]
        exact hrnd1 q hqm
  · intro q hqm q' hq'
    rw [hbf] at hq'
    by_cases hql : q ∈ s.ql
    · rw [if_pos hql] at hq'
      replace hq' : q' ∈ s.ql := by
        rw [show (postSplitC c1 s).repQ s.rid = s.ql from hrep] at hq'
        exact hq'
      have hq'L : q' ∈ L := ((hmemq q').mp hq').1
      refine ⟨hLsub q' hq'L, ?_⟩
      rw [hbf, hbf, if_pos hq', if_pos hql]
    · rw [if_neg hql] at hq'
      by_cases hqsp : q ∈ qsp
      · replace hq' : q' = q := by
          rw [show (postSplitC c1 s).repQ (s.owner q) = [q] from
            (hpr q hqsp).2.2.1] at hq'
          exact List.mem_singleton.mp hq'
        subst hq'
        exact ⟨hqm, rfl⟩
      · have howq : s.owner q = c1.owner q := hnotpr q hqsp
        replace hq' : q' ∈ c1.repQ (c1.owner q) := by
          rw [show (postSplitC c1 s).repQ (s.owner q) = c1.repQ (c1.owner q) by
            rw [howq]; exact hpres _ (hlt1 q hqm)] at hq'
          exact hq'
        obtain ⟨ha, hb⟩ := hcons1 q hqm q' hq'
        have hqnotL : q ∉ L := by
          intro hqL
          exact hql ((hmemq q).mpr ⟨hqL, hqsp⟩)
        have hownm : c1.owner q ≠ rid := by
          intro h
          apply hqnotL
          rw [← hL, ← h]
          exact hmem1 q hqm
        have hq'notL : q' ∉ L := by
          intro h
          exact hownm (hb ▸ hOwn q' h)
        have hq'nql : q' ∉ s.ql := fun h => hq'notL ((hmemq q').mp h).1
        have hq'nqsp : q' ∉ qsp := fun h => hq'notL (hqsL q' h)
        refine ⟨ha, ?_⟩
        rw [hbf, hbf, if_neg hq'nql, if_neg hql, hnotpr q' hq'nqsp, howq, hb]

theorem splitStep_false (s : SplitSt) (q : Nat) : splitStep false s q = s := rfl

theorem foldl_splitStep_false (qs : List Nat) (s : SplitSt) :
    qs.foldl (splitStep false) s = s := by
  induction qs with
  | nil => rfl
  | cons q qs ih => rw [List.foldl_cons, splitStep_false]; exact ih

theorem stepGeneric_eq_none (c : Container) (g : ContGate) (qs : List Nat)
    (h : (mergeLoop c qs).acc = none) : stepGeneric c g qs = c := by
  unfold stepGeneric
  rw [h]

theorem stepGeneric_eq_split (c : Container) (g : ContGate) (qs : List Nat)
    (rid : Nat) (ql : List Nat) (hacc : (mergeLoop c qs).acc = some (rid, ql))
    (hcond : (c.split && unentangles c g) = true) :
    stepGeneric c g qs = splitC c qs rid ql := by
  unfold stepGeneric
  rw [hacc]
  dsimp only
  rw [hcond]
  rfl

theorem stepGeneric_eq_noSplit (c : Container) (g : ContGate) (qs : List Nat)
    (rid : Nat) (ql : List Nat) (hacc : (mergeLoop c qs).acc = some (rid, ql))
    (hcond : (c.split && unentangles c g) = false) :
    stepGeneric c g qs = mergedC c qs rid ql := by
  unfold stepGeneric
  rw [hacc]
  dsimp only
  rw [hcond]
  rfl

theorem swapFn_invol (a b x : Nat) : swapFn a b (swapFn a b x) = x := by
  unfold swapFn
  split_ifs <;> omega

theorem swapFn_inj (a b : Nat) : Function.Injective (swapFn a b) := by
  intro x y h
  calc x = swapFn a b (swapFn a b x) := (swapFn_invol a b x).symm
    _ = swapFn a b (swapFn a b y) := by rw [h]
    _ = y := swapFn_invol a b y

theorem mem_swapElems (l : List Nat) (a b x : Nat) :
    x ∈ swapElems l a b ↔ swapFn a b x ∈ l := by
  unfold swapElems
  rw [List.mem_map]
  constructor
  · rintro ⟨y, hy, rfl⟩
    rw [swapFn_invol]
    exact hy
  · intro h
    exact ⟨swapFn a b x, h, swapFn_invol a b x⟩

theorem renameElem_nodup (l : List Nat) (a b : Nat) (hb : b ∉ l)
    (h : l.Nodup) : (renameElem l a b).Nodup := by
  apply List.Nodup.map_on ?_ h
  intro x hx y hy hxy
  by_cases h1 : x = a <;> by_cases h2 : y = a
  · rw [h1, h2]
  · rw [if_pos h1, if_neg h2] at hxy
    exact absurd (hxy ▸ hy) hb
  · rw [if_neg h1, if_pos h2] at hxy
    exact absurd (hxy ▸ hx) hb
  · rwa [if_neg h1, if_neg h2] at hxy

/-- The observable effect of the SwapPowGate fast path: `nextId` is unchanged
(no instance is created, nothing merged), the mapping is relabelled by the
transposition of the two qubit identities, and only the two owning instances'
sequences are touched. -/
theorem stepSwap_spec (c : Container) (q0 q1 : Nat) :
    (stepSwap c q0 q1).qubits = c.qubits ∧
    (stepSwap c q0 q1).nextId = c.nextId ∧
    (∀ x, (stepSwap c q0 q1).owner x = c.owner (swapFn q0 q1 x)) ∧
    (∀ r, r ≠ c.owner q0 → r ≠ c.owner q1 →
      (stepSwap c q0 q1).repQ r = c.repQ r) := by
  unfold stepSwap
  by_cases h : c.owner q0 = c.owner q1
  · rw [if_pos h]
    refine ⟨rfl, rfl, ?_, ?_⟩
    · intro x
      unfold swapFn
      split_ifs with h1 h2
      · rw [h1, h]
      · rw [h2, h]
      · rfl
    · intro r hr0 _
      dsimp only
      rw [setRep_apply, if_neg hr0]
  · rw [if_neg h]
    refine ⟨rfl, rfl, ?_, ?_⟩
    · intro x
      dsimp only
      rw [setOwner_apply, setOwner_apply]
      unfold swapFn
      have hq01 : q0 ≠ q1 := by
        intro he
        exact h (he ▸ rfl)
      split_ifs with h1 h2 <;> try rfl
      · omega
    · intro r hr0 hr1
      dsimp only
      rw [setRep_apply, if_neg hr0, setRep_apply, if_neg hr1]

theorem stepSwap_inv (c : Container) (hc : Inv c) (q0 q1 : Nat)
    (h0 : q0 ∈ c.qubits) (h1 : q1 ∈ c.qubits) : Inv (stepSwap c q0 q1) := by
  obtain ⟨hnd, hlt, hmem, hrnd, hcons⟩ := hc
  unfold stepSwap
  by_cases h : c.owner q0 = c.owner q1
  · rw [if_pos h]
    have hq1L : q1 ∈ c.repQ (c.owner q0) := by rw [h]; exact hmem q1 h1
    have hswap_mem : ∀ x ∈ c.qubits,
        x ∈ swapElems (c.repQ (c.owner q0)) q0 q1 ↔
          swapFn q0 q1 x ∈ c.repQ (c.owner q0) := fun x _ => mem_swapElems _ _ _ x
    refine ⟨hnd, hlt, ?_, ?_, ?_⟩
    · intro q hq
      dsimp only
      rw [setRep_apply]
      by_cases hq' : c.owner q = c.owner q0
      · rw [if_pos hq', mem_swapElems]
        unfold swapFn
        split_ifs with ha hb
        · exact hq1L
        · exact hmem q0 h0
        · rw [← hq']; exact hmem q hq
      · rw [if_neg hq']
        exact hmem q hq
    · intro q hq
      dsimp only
      rw [setRep_apply]
      by_cases hq' : c.owner q = c.owner q0
      · rw [if_pos hq']
        exact List.Nodup.map (swapFn_inj q0 q1) (hq' ▸ hrnd q hq)
      · rw [if_neg hq']
        exact hrnd q hq
    · intro q hq q' hq'
      dsimp only at hq' ⊢
      rw [setRep_apply] at hq'
      by_cases hq'' : c.owner q = c.owner q0
      · rw [if_pos hq''] at hq'
        obtain ⟨y, hy, rfl⟩ := List.mem_map.mp hq'
        obtain ⟨hya, hyb⟩ := hcons q0 h0 y hy
        have hmemq : swapFn q0 q1 y ∈ c.qubits := by
          unfold swapFn
          split_ifs
          · exact h1
          · exact h0
          · exact hya
        have howy : c.owner (swapFn q0 q1 y) = c.owner q0 := by
          unfold swapFn
          split_ifs
          · exact h.symm
          · rfl
          · exact hyb
        exact ⟨hmemq, by rw [howy, hq'']⟩
      · rw [if_neg hq''] at hq'
        exact hcons q hq q' hq'
  · rw [if_neg h]
    have hq01 : q0 ≠ q1 := fun he => h (he ▸ rfl)
    have hq1L0 : q1 ∉ c.repQ (c.owner q0) := by
      intro hmm
      exact h ((hcons q0 h0 q1 hmm).2.symm)
    have hq0L1 : q0 ∉ c.repQ (c.owner q1) := by
      intro hmm
      exact h ((hcons q1 h1 q0 hmm).2)
    have hne10 : c.owner q1 ≠ c.owner q0 := fun he => h he.symm
    have howner : ∀ x, setOwner (setOwner c.owner q0 (c.owner q1)) q1
        (c.owner q0) x = if x = q1 then c.owner q0
          else if x = q0 then c.owner q1 else c.owner x := by
      intro x
      rw [setOwner_apply, setOwner_apply]
    have hrep : ∀ r, setRep (setRep c.repQ (c.owner q1)
        (renameElem (c.repQ (c.owner q1)) q1 q0)) (c.owner q0)
        (renameElem (c.repQ (c.owner q0)) q0 q1) r =
        if r = c.owner q0 then renameElem (c.repQ (c.owner q0)) q0 q1
        else if r = c.owner q1 then renameElem (c.repQ (c.owner q1)) q1 q0
        else c.repQ r := by
      intro r
      by_cases hr0 : r = c.owner q0
      · rw [setRep_apply, if_pos hr0, if_pos hr0]
      · rw [setRep_apply, if_neg hr0, setRep_apply, if_neg hr0]
    have hmm0 : ∀ y ∈ c.repQ (c.owner q0), y ≠ q1 := fun y hy he => hq1L0 (he ▸ hy)
    have hmm1 : ∀ y ∈ c.repQ (c.owner q1), y ≠ q0 := fun y hy he => hq0L1 (he ▸ hy)
    refine ⟨hnd, ?_, ?_, ?_, ?_⟩
    · intro q hq
      dsimp only
      rw [howner]
      split_ifs
      · exact hlt q0 h0
      · exact hlt q1 h1
      · exact hlt q hq
    · intro q hq
      dsimp only
      rw [howner]
      by_cases hqq1 : q = q1
      · rw [if_pos hqq1, hrep, if_pos rfl]
        subst hqq1
        exact List.mem_map.mpr ⟨q0, hmem q0 h0, by rw [if_pos rfl]⟩
      · rw [if_neg hqq1]
        by_cases hqq0 : q = q0
        · rw [if_pos hqq0, hrep, if_neg hne10, if_pos rfl]
          subst hqq0
          exact List.mem_map.mpr ⟨q1, hmem q1 h1, by rw [if_pos rfl]⟩
        · rw [if_neg hqq0, hrep]
          by_cases hr0 : c.owner q = c.owner q0
          · rw [if_pos hr0]
            refine List.mem_map.mpr ⟨q, ?_, by rw [if_neg hqq0]⟩
            rw [← hr0]
            exact hmem q hq
          · rw [if_neg hr0]
            by_cases hr1 : c.owner q = c.owner q1
            · rw [if_pos hr1]
              refine List.mem_map.mpr ⟨q, ?_, by rw [if_neg hqq1]⟩
              rw [← hr1]
              exact hmem q hq
            · rw [if_neg hr1]
              exact hmem q hq
    · intro q hq
      dsimp only
      rw [howner]
      by_cases hqq1 : q = q1
      · rw [if_pos hqq1, hrep, if_pos rfl]
        exact renameElem_nodup _ _ _ hq1L0 (hrnd q0 h0)
      · rw [if_neg hqq1]
        by_cases hqq0 : q = q0
        · rw [if_pos hqq0, hrep, if_neg hne10, if_pos rfl]
          exact renameElem_nodup _ _ _ hq0L1 (hrnd q1 h1)
        · rw [if_neg hqq0, hrep]
          by_cases hr0 : c.owner q = c.owner q0
          · rw [if_pos hr0]
            exact renameElem_nodup _ _ _ (hr0 ▸ hq1L0) (hr0 ▸ hrnd q hq)
          · rw [if_neg hr0]
            by_cases hr1 : c.owner q = c.owner q1
            · rw [if_pos hr1]
              exact renameElem_nodup _ _ _ (hr1 ▸ hq0L1) (hr1 ▸ hrnd q hq)
            · rw [if_neg hr1]
              exact hrnd q hq
    · intro q hq q' hq'
      dsimp only at hq' ⊢
      by_cases hqq1 : q = q1
      · have howq : setOwner (setOwner c.owner q0 (c.owner q1)) q1
            (c.owner q0) q = c.owner q0 := by rw [howner, if_pos hqq1]
        rw [howq, hrep, if_pos rfl] at hq'
        rw [howq]
        obtain ⟨y, hy, rfl⟩ := List.mem_map.mp hq'
        obtain ⟨hya, hyb⟩ := hcons q0 h0 y hy
        by_cases hyq0 : y = q0
        · rw [if_pos hyq0, howner, if_pos rfl]
          exact ⟨h1, rfl⟩
        · rw [if_neg hyq0]
          have hyq1 : y ≠ q1 := hmm0 y hy
          rw [howner, if_neg hyq1, if_neg hyq0, hyb]
          exact ⟨hya, rfl⟩
      · by_cases hqq0 : q = q0
        · have howq : setOwner (setOwner c.owner q0 (c.owner q1)) q1
              (c.owner q0) q = c.owner q1 := by
            rw [howner, if_neg hqq1, if_pos hqq0]
          rw [howq, hrep, if_neg hne10, if_pos rfl] at hq'
          rw [howq]
          obtain ⟨y, hy, rfl⟩ := List.mem_map.mp hq'
          obtain ⟨hya, hyb⟩ := hcons q1 h1 y hy
          by_cases hyq1 : y = q1
          · rw [if_pos hyq1, howner, if_neg hq01, if_pos rfl]
            exact ⟨h0, rfl⟩
          · rw [if_neg hyq1]
            have hyq0 : y ≠ q0 := hmm1 y hy
            rw [howner, if_neg hyq1, if_neg hyq0, hyb]
            exact ⟨hya, rfl⟩
        · have howq : setOwner (setOwner c.owner q0 (c.owner q1)) q1
              (c.owner q0) q = c.owner q := by
            rw [howner, if_neg hqq1, if_neg hqq0]
          rw [howq, hrep] at hq'
          rw [howq]
          by_cases hr0 : c.owner q = c.owner q0
          · rw [if_pos hr0] at hq'
            obtain ⟨y, hy, rfl⟩ := List.mem_map.mp hq'
            obtain ⟨hya, hyb⟩ := hcons q0 h0 y hy
            by_cases hyq0 : y = q0
            · rw [if_pos hyq0, howner, if_pos rfl, hr0]
              exact ⟨h1, rfl⟩
            · rw [if_neg hyq0]
              have hyq1 : y ≠ q1 := hmm0 y hy
              rw [howner, if_neg hyq1, if_neg hyq0, hyb, hr0]
              exact ⟨hya, rfl⟩
          · rw [if_neg hr0] at hq'
            by_cases hr1 : c.owner q = c.owner q1
            · rw [if_pos hr1] at hq'
              obtain ⟨y, hy, rfl⟩ := List.mem_map.mp hq'
              obtain ⟨hya, hyb⟩ := hcons q1 h1 y hy
              by_cases hyq1 : y = q1
              · rw [if_pos hyq1, howner, if_neg hq01, if_pos rfl, hr1]
                exact ⟨h0, rfl⟩
              · rw [if_neg hyq1]
                have hyq0 : y ≠ q0 := hmm1 y hy
                rw [howner, if_neg hyq1, if_neg hyq0, hyb, hr1]
                exact ⟨hya, rfl⟩
            · rw [if_neg hr1] at hq'
              obtain ⟨hya, hyb⟩ := hcons q hq q' hq'
              have hyq1 : q' ≠ q1 := by
                intro he
                subst he
                exact hr1 (by rw [← hyb])
              have hyq0 : q' ≠ q0 := by
                intro he
                subst he
                exact hr0 (by rw [← hyb])
              rw [howner, if_neg hyq1, if_neg hyq0, hyb]
              exact ⟨hya, rfl⟩

/-- With factoring capability, the decouple phase leaves every target qubit in
a fresh singleton instance and preserves the invariant. -/
theorem splitC_spec (c : Container) (hc : Inv c) (qs : List Nat)
    (hqs : ∀ q ∈ qs, q ∈ c.qubits) (hnd : qs.Nodup) (rid : Nat) (ql : List Nat)
    (hacc : (mergeLoop c qs).acc = some (rid, ql))
    (haf : c.allowsFactoring = true) :
    Inv (splitC c qs rid ql) ∧
    (∀ q ∈ qs, (splitC c qs rid ql).repQ ((splitC c qs rid ql).owner q) = [q] ∧
      c.nextId ≤ (splitC c qs rid ql).owner q) := by
  obtain ⟨hinv1, hql_rid, hrep, htgt, hridlt, hnle, hqlnd, hclos, hnotin, hpres⟩ :=
    merge_backfill_spec c hc qs hqs rid ql hacc
  have hinit : SplitInv (mergedC c qs rid ql) ql []
      ⟨rid, ql, (mergedC c qs rid ql).owner, (mergedC c qs rid ql).repQ,
        (mergedC c qs rid ql).nextId⟩ := by
    refine ⟨le_refl _, fun r _ => rfl, hrep, hridlt, ?_, hqlnd, ?_, ?_⟩
    · intro x
      simp
    · intro q hq
      exact absurd hq (List.not_mem_nil q)
    · intro q _
      rfl
  have hfold := splitFold_inv (mergedC c qs rid ql) ql qs [] _ hnd
    (fun q hq => ⟨htgt q hq, List.not_mem_nil q⟩) hinit
  rw [List.nil_append] at hfold
  have heq : splitFold c qs rid ql =
      qs.foldl (splitStep true)
        ⟨rid, ql, (mergedC c qs rid ql).owner, (mergedC c qs rid ql).repQ,
          (mergedC c qs rid ql).nextId⟩ := by
    unfold splitFold
    rw [haf]
  have hfinal := split_final_spec (mergedC c qs rid ql) hinv1 rid ql hrep
    hql_rid (fun x hx => (hclos x hx).1) qs hqs htgt _ hfold
  rw [splitC_eq_postSplitC, heq]
  refine ⟨hfinal.1, ?_⟩
  intro q hq
  obtain ⟨h1, h2, h3⟩ := hfinal.2 q hq
  exact ⟨h2, le_trans hnle (h1 ▸ h3)⟩

theorem stepGeneric_inv (c : Container) (hc : Inv c) (g : ContGate)
    (qs : List Nat) (hqs : ∀ q ∈ qs, q ∈ c.qubits) (hnd : qs.Nodup) :
    Inv (stepGeneric c g qs) := by
  cases hacc : (mergeLoop c qs).acc with
  | none =>
    rw [stepGeneric_eq_none c g qs hacc]
    exact hc
  | some p =>
    obtain ⟨rid, ql⟩ := p
    cases hcond : (c.split && unentangles c g) with
    | false =>
      rw [stepGeneric_eq_noSplit c g qs rid ql hacc hcond]
      exact (merge_backfill_spec c hc qs hqs rid ql hacc).1
    | true =>
      rw [stepGeneric_eq_split c g qs rid ql hacc hcond]
      cases haf : c.allowsFactoring with
      | true => exact (splitC_spec c hc qs hqs hnd rid ql hacc haf).1
      | false =>
        obtain ⟨hinv1, hql_rid, hrep, htgt, hridlt, hnle, hqlnd, hclos,
          hnotin, hpres⟩ := merge_backfill_spec c hc qs hqs rid ql hacc
        have heq : splitFold c qs rid ql =
            ⟨rid, ql, (mergedC c qs rid ql).owner, (mergedC c qs rid ql).repQ,
              (mergedC c qs rid ql).nextId⟩ := by
          unfold splitFold
          rw [haf, foldl_splitStep_false]
        refine inv_congr (mergedC c qs rid ql) (splitC c qs rid ql) rfl ?_ ?_ ?_ hinv1
        · intro x
          rw [splitC_eq_postSplitC, heq]
          show backfill (mergedC c qs rid ql).owner ql rid x =
            (mergedC c qs rid ql).owner x
          rw [backfill_apply]
          by_cases hx : x ∈ ql
          · rw [if_pos hx]
            exact (hql_rid x hx).symm
          · rw [if_neg hx]
        · intro r
          rw [splitC_eq_postSplitC, heq]
          rfl
        · rw [splitC_eq_postSplitC, heq]
          rfl

theorem stepGeneric_qubits (c : Container) (g : ContGate) (qs : List Nat) :
    (stepGeneric c g qs).qubits = c.qubits := by
  cases hacc : (mergeLoop c qs).acc with
  | none => rw [stepGeneric_eq_none c g qs hacc]
  | some p =>
    obtain ⟨rid, ql⟩ := p
    cases hcond : (c.split && unentangles c g) with
    | true => rw [stepGeneric_eq_split c g qs rid ql hacc hcond]; rfl
    | false => rw [stepGeneric_eq_noSplit c g qs rid ql hacc hcond]; rfl

theorem stepOp_inv (actRec : ContGate → List Nat → List (String × Nat))
    (c : Container) (hc : Inv c) (op : ContOp) (hwf : WfOp c op) :
    Inv (stepOp actRec c op).1 := by
  obtain ⟨hq, hnd⟩ := hwf
  unfold stepOp
  by_cases hid : isIdentity op.gate = true
  · rw [if_pos hid]
    exact hc
  · rw [if_neg hid]
    by_cases hsw : swapFastPath op.gate = true
    · rw [if_pos hsw]
      rcases hqs2 : op.qs with _ | ⟨q0, _ | ⟨q1, _ | ⟨q2, rest⟩⟩⟩
      · exact hc
      · exact hc
      · dsimp only
        apply stepSwap_inv c hc q0 q1
        · exact hq q0 (by rw [hqs2]; exact List.mem_cons_self _ _)
        · exact hq q1 (by rw [hqs2]; simp)
      · exact hc
    · rw [if_neg hsw]
      exact stepGeneric_inv c hc op.gate op.qs hq hnd

theorem stepOp_qubits (actRec : ContGate → List Nat → List (String × Nat))
    (c : Container) (op : ContOp) : (stepOp actRec c op).1.qubits = c.qubits := by
  unfold stepOp
  by_cases hid : isIdentity op.gate = true
  · rw [if_pos hid]
  · rw [if_neg hid]
    by_cases hsw : swapFastPath op.gate = true
    · rw [if_pos hsw]
      rcases op.qs with _ | ⟨q0, _ | ⟨q1, _ | ⟨q2, rest⟩⟩⟩
      · rfl
      · rfl
      · exact (stepSwap_spec c q0 q1).1
      · rfl
    · rw [if_neg hsw]
      exact stepGeneric_qubits c op.gate op.qs

theorem stepOps_inv (actRec : ContGate → List Nat → List (String × Nat))
    (ops : List ContOp) :
    ∀ (c : Container), Inv c → (∀ op ∈ ops, WfOp c op) →
      Inv (stepOps actRec c ops) := by
  induction ops with
  | nil =>
    intro c hc _
    exact hc
  | cons op ops ih =>
    intro c hc hwf
    show Inv (stepOps actRec (stepOp actRec c op).1 ops)
    apply ih
    · exact stepOp_inv actRec c hc op (hwf op (List.mem_cons_self _ _))
    · intro op' hop'
      obtain ⟨h1, h2⟩ := hwf op' (List.mem_cons_of_mem _ hop')
      exact ⟨fun q hq => by rw [stepOp_qubits]; exact h1 q hq, h2⟩

theorem mergeLoop_acc_some (c : Container) (hc : Inv c) (qs : List Nat)
    (hqs : ∀ q ∈ qs, q ∈ c.qubits) (hne : qs ≠ []) :
    ∃ rid ql, (mergeLoop c qs).acc = some (rid, ql) := by
  obtain ⟨_, _, hfall⟩ := mergeFold_inv c hc qs _ hqs (mergeLoop_initial c)
  match qs, hne with
  | q :: qs', _ =>
    obtain ⟨rid, ql, h, _⟩ := hfall q (List.mem_cons_self _ _)
    exact ⟨rid, ql, h⟩

/-- Without factoring capability the decouple loop does nothing: the final
container agrees pointwise with the merged container. -/
theorem splitC_noFactor (c : Container) (qs : List Nat) (rid : Nat)
    (ql : List Nat) (hql_rid : ∀ q ∈ ql, backfill c.owner ql rid q = rid)
    (haf : c.allowsFactoring = false) :
    (∀ x, (splitC c qs rid ql).owner x = (mergedC c qs rid ql).owner x) ∧
    (splitC c qs rid ql).repQ = (mergedC c qs rid ql).repQ ∧
    (splitC c qs rid ql).nextId = (mergedC c qs rid ql).nextId := by
  have heq : splitFold c qs rid ql =
      ⟨rid, ql, (mergedC c qs rid ql).owner, (mergedC c qs rid ql).repQ,
        (mergedC c qs rid ql).nextId⟩ := by
    unfold splitFold
    rw [haf, foldl_splitStep_false]
  refine ⟨?_, ?_, ?_⟩
  · intro x
    rw [splitC_eq_postSplitC, heq]
    show backfill (mergedC c qs rid ql).owner ql rid x =
      (mergedC c qs rid ql).owner x
    rw [backfill_apply]
    by_cases hx : x ∈ ql
    · rw [if_pos hx]
      exact (hql_rid x hx).symm
    · rw [if_neg hx]
  · rw [splitC_eq_postSplitC, heq]
    rfl
  · rw [splitC_eq_postSplitC, heq]
    rfl

/-- **C2.** The container preserves the partition invariant: after every
sequence of well-formed operations, the union of qubit sets across the
distinct representation instances in the mapping equals the full qubit set
exactly once (no qubit owned by two distinct instances, no qubit unowned);
and on the general path every operation spanning several instances folds them
by repeated `kronecker_product`, repointing every qubit of each merged
instance — including qubits outside the operation's targets — to the merged
instance (merges are all-or-nothing per instance). -/
theorem container_partition_invariant
    (actRec : ContGate → List Nat → List (String × Nat)) (c : Container)
    (ops : List ContOp) (hc : Inv c) (hwf : ∀ op ∈ ops, WfOp c op) :
    Inv (stepOps actRec c ops) ∧ PartitionProp (stepOps actRec c ops) ∧
    (∀ g qs rid ql, (mergeLoop c qs).acc = some (rid, ql) →
      (∀ q ∈ qs, q ∈ c.qubits) →
      (c.split && unentangles c g) = false →
      (∀ qt ∈ qs, (stepGeneric c g qs).owner qt = rid) ∧
      (∀ q0 ∈ c.qubits, (∃ qt ∈ qs, c.owner q0 = c.owner qt) →
        (stepGeneric c g qs).owner q0 = rid)) := by
  have hinv := stepOps_inv actRec ops c hc hwf
  refine ⟨hinv, inv_implies_partition _ hinv, ?_⟩
  intro g qs rid ql hacc hqs hcond
  obtain ⟨hinv1, hql_rid, hrep, htgt, hridlt, hnle, hqlnd, hclos, hnotin, hpres⟩ :=
    merge_backfill_spec c hc qs hqs rid ql hacc
  rw [stepGeneric_eq_noSplit c g qs rid ql hacc hcond]
  constructor
  · intro qt hqt
    exact hql_rid qt (htgt qt hqt)
  · intro q0 hq0 ⟨qt, hqt, howeq⟩
    apply hql_rid
    have h1 : q0 ∈ c.repQ (c.owner qt) := by
      rw [← howeq]
      exact hc.2.2.1 q0 hq0
    exact (hclos qt (htgt qt hqt)).2 q0 h1

/-- A demonstration container: two qubits, each in its own single-qubit
representation instance, splitting enabled, factoring supported. -/
def contW : Container :=
  { qubits := [0, 1], owner := fun q => q,
    repQ := fun r => if r = 0 then [0] else if r = 1 then [1] else [],
    nextId := 2, split := true, allowsFactoring := true, ignoreMeas := false }

theorem container_partition_invariant_witness :
    Inv (stepOps (fun _ _ => []) contW [⟨ContGate.other, [0, 1]⟩]) ∧
    PartitionProp (stepOps (fun _ _ => []) contW [⟨ContGate.other, [0, 1]⟩]) := by
  have hc : Inv contW := by
    unfold Inv contW
    refine ⟨by decide, ?_, ?_, ?_, ?_⟩ <;> decide
  have hwf : ∀ op ∈ [(⟨ContGate.other, [0, 1]⟩ : ContOp)], WfOp contW op := by
    intro op hop
    rw [List.mem_singleton] at hop
    subst hop
    exact ⟨by decide, by decide⟩
  have h := container_partition_invariant (fun _ _ => []) contW
    [⟨ContGate.other, [0, 1]⟩] hc hwf
  exact ⟨h.1, h.2.1⟩

/-- **C4.** When splitting is enabled and the gate is a reset or a
non-suppressed measurement, the container factors each target qubit out of the
just-mutated instance: with factoring capability every target ends in a fresh
single-qubit instance of its own (and distinct targets get distinct
instances); without factoring capability the decoupling step is skipped
entirely and the targets stay merged in one instance. -/
theorem measurement_split_behavior (c : Container) (hc : Inv c) (g : ContGate)
    (qs : List Nat) (hqs : ∀ q ∈ qs, q ∈ c.qubits) (hnd : qs.Nodup)
    (hne : qs ≠ []) (hcond : (c.split && unentangles c g) = true) :
    (c.allowsFactoring = true →
      ∀ q ∈ qs, (stepGeneric c g qs).repQ ((stepGeneric c g qs).owner q) = [q] ∧
        c.nextId ≤ (stepGeneric c g qs).owner q ∧
        ∀ q' ∈ qs, (stepGeneric c g qs).owner q' = (stepGeneric c g qs).owner q →
          q' = q) ∧
    (c.allowsFactoring = false →
      ∀ q ∈ qs, ∀ q' ∈ qs,
        (stepGeneric c g qs).owner q = (stepGeneric c g qs).owner q') := by
  obtain ⟨rid, ql, hacc⟩ := mergeLoop_acc_some c hc qs hqs hne
  rw [stepGeneric_eq_split c g qs rid ql hacc hcond]
  obtain ⟨hinv1, hql_rid, hrep, htgt, hridlt, hnle, hqlnd, hclos, hnotin, hpres⟩ :=
    merge_backfill_spec c hc qs hqs rid ql hacc
  constructor
  · intro haf q hq
    obtain ⟨h1, h2⟩ := (splitC_spec c hc qs hqs hnd rid ql hacc haf).2 q hq
    refine ⟨h1, h2, ?_⟩
    intro q' hq' heq
    obtain ⟨h1', _⟩ := (splitC_spec c hc qs hqs hnd rid ql hacc haf).2 q' hq'
    rw [heq, h1] at h1'
    exact ((List.cons.injEq _ _ _ _ ▸ h1').1).symm
  · intro haf q hq q' hq'
    obtain ⟨ho, _, _⟩ := splitC_noFactor c qs rid ql hql_rid haf
    rw [ho q, ho q']
    show backfill c.owner ql rid q = backfill c.owner ql rid q'
    rw [hql_rid q (htgt q hq), hql_rid q' (htgt q' hq')]

theorem measurement_split_behavior_witness :
    (stepGeneric contW ContGate.measurement [0, 1]).repQ
      ((stepGeneric contW ContGate.measurement [0, 1]).owner 0) = [0] ∧
    (stepGeneric contW ContGate.measurement [0, 1]).repQ
      ((stepGeneric contW ContGate.measurement [0, 1]).owner 1) = [1] ∧
    contW.nextId ≤ (stepGeneric contW ContGate.measurement [0, 1]).owner 0 ∧
    contW.nextId ≤ (stepGeneric contW ContGate.measurement [0, 1]).owner 1 := by
  have hc : Inv contW := by
    unfold Inv contW
    refine ⟨by decide, ?_, ?_, ?_, ?_⟩ <;> decide
  have h := (measurement_split_behavior contW hc ContGate.measurement [0, 1]
    (by decide) (by decide) (by decide) (by decide)).1 rfl
  exact ⟨(h 0 (by decide)).1, (h 1 (by decide)).1,
    (h 0 (by decide)).2.1, (h 1 (by decide)).2.1⟩

/-- **C5.** The full-swap fast path never merges representations: no new
instance is created (`nextId` unchanged), the mapping is updated purely by
relabelling which instance owns which qubit identity (the owner map is the old
map precomposed with the transposition of the two qubits), only the two owning
instances' axis bookkeeping is touched, and the set of distinct representation
instances referenced by the mapping is unchanged. -/
theorem swap_fast_path (actRec : ContGate → List Nat → List (String × Nat))
    (c : Container) (q0 q1 : Nat) (h0 : q0 ∈ c.qubits) (h1 : q1 ∈ c.qubits) :
    stepOp actRec c ⟨ContGate.swapPow true true, [q0, q1]⟩ =
      (stepSwap c q0 q1, []) ∧
    (stepSwap c q0 q1).nextId = c.nextId ∧
    (∀ x, (stepSwap c q0 q1).owner x = c.owner (swapFn q0 q1 x)) ∧
    (∀ r, r ≠ c.owner q0 → r ≠ c.owner q1 →
      (stepSwap c q0 q1).repQ r = c.repQ r) ∧
    (∀ r, (∃ q ∈ c.qubits, (stepSwap c q0 q1).owner q = r) ↔
      (∃ q ∈ c.qubits, c.owner q = r)) := by
  obtain ⟨hq, hn, how, hrep⟩ := stepSwap_spec c q0 q1
  refine ⟨rfl, hn, how, hrep, ?_⟩
  intro r
  constructor
  · rintro ⟨q, hqm, hqr⟩
    rw [how] at hqr
    refine ⟨swapFn q0 q1 q, ?_, hqr⟩
    unfold swapFn
    split_ifs
    · exact h1
    · exact h0
    · exact hqm
  · rintro ⟨q, hqm, hqr⟩
    refine ⟨swapFn q0 q1 q, ?_, ?_⟩
    · unfold swapFn
      split_ifs
      · exact h1
      · exact h0
      · exact hqm
    · rw [how, swapFn_invol]
      exact hqr

theorem swap_fast_path_witness :
    stepOp (fun _ _ => []) contW ⟨ContGate.swapPow true true, [0, 1]⟩ =
      (stepSwap contW 0 1, []) ∧
    (stepSwap contW 0 1).nextId = contW.nextId ∧
    (∀ x, (stepSwap contW 0 1).owner x = contW.owner (swapFn 0 1 x)) := by
  have h := swap_fast_path (fun _ _ => []) contW 0 1 (by decide) (by decide)
  exact ⟨h.1, h.2.1, h.2.2.1⟩

/-- **C10.** An identity gate through the container is a complete no-op: the
fallback returns before any merge, `act_on`, or split — the container (mapping,
instances, `nextId`) is unchanged and nothing is recorded to the classical data
log, for any target qubits. -/
theorem identity_gate_noop (actRec : ContGate → List Nat → List (String × Nat))
    (c : Container) (qs : List Nat) :
    stepOp actRec c ⟨ContGate.identity, qs⟩ = (c, []) := rfl

/-! ### Container-wide sampling

Embeds `ActOnArgsContainer.sample` (act_on_args_container.py, lines 174-192).
A representation's `v.sample(qs, repetitions, seed)` is abstracted by
`outcome v q i` — the outcome of qubit `q` in repetition `i` of instance `v`'s
independent experiment — so `repSample` is the `repetitions × len(qs)` matrix
the instance returns.  `dict.fromkeys(self.args.values())` is first-occurrence
deduplication of the mapping's values; `if any(qs)` is non-emptiness (qubit
objects are always truthy); `np.column_stack` concatenates the matrices
horizontally; `{q: i for i, q in enumerate(selected_order)}` followed by
`stacked[:, index_order]` reorders columns into the caller's requested qubit
order.  (For a duplicated qubit the Python dict would keep the last index;
`selected_order` is duplicate-free under the partition invariant — proved
below — so the first index embedded here coincides with it.) -/

def repSample (outcome : Nat → Nat → Nat → Bool) (v : Nat) (qs : List Nat)
    (reps : Nat) : List (List Bool) :=
  (List.range reps).map (fun i => qs.map (fun q => outcome v q i))

def columnStack (mats : List (List (List Bool))) : List (List Bool) :=
  match mats with
  | [] => []
  | m :: _ =>
    (List.range m.length).map (fun i => (mats.map (fun mm => mm.getD i [])).flatten)

def idxOf (l : List Nat) (q : Nat) : Nat :=
  match l with
  | [] => 0
  | x :: xs => if x = q then 0 else idxOf xs q + 1

/-- The per-instance loop: the distinct instances in mapping order, each with
the requested sub-qubits it owns (in the instance's own qubit order), skipping
instances owning none of the requested qubits. -/
def samplePieces (c : Container) (req : List Nat) : List (List Nat × Nat) :=
  ((firstDedup (c.qubits.map c.owner)).map
    (fun v => ((c.repQ v).filter (fun q => decide (q ∈ req)), v))).filter
    (fun p => !p.1.isEmpty)

def selOrder (c : Container) (req : List Nat) : List Nat :=
  ((samplePieces c req).map Prod.fst).flatten

def containerSample (c : Container) (outcome : Nat → Nat → Nat → Bool)
    (req : List Nat) (reps : Nat) : List (List Bool) :=
  (columnStack ((samplePieces c req).map
      (fun p => repSample outcome p.2 p.1 reps))).map
    (fun row => (req.map (fun q => idxOf (selOrder c req) q)).map
      (fun idx => row.getD idx false))

theorem getD_map_lt {α β : Type} (l : List α) (f : α → β) (n : Nat) (d : β)
    (d0 : α) (h : n < l.length) : (l.map f).getD n d = f (l.getD n d0) := by
  induction l generalizing n with
  | nil => simp at h
  | cons x xs ih =>
    cases n with
    | zero => rfl
    | succ n' =>
      simp only [List.map_cons, List.getD_cons_succ]
      exact ih n' (by simpa using h)

theorem idxOf_spec (l : List Nat) (q : Nat) (h : q ∈ l) :
    idxOf l q < l.length ∧ l.getD (idxOf l q) 0 = q := by
  induction l with
  | nil => simp at h
  | cons x xs ih =>
    by_cases hx : x = q
    · rw [idxOf, if_pos hx]
      exact ⟨by simp, hx⟩
    · rw [idxOf, if_neg hx]
      have hmem : q ∈ xs := by
        rcases List.mem_cons.mp h with h' | h'
        · exact absurd h'.symm hx
        · exact h'
      obtain ⟨h1, h2⟩ := ih hmem
      exact ⟨by simpa using h1, by simpa using h2⟩

theorem range_getD (n i : Nat) (h : i < n) : (List.range n).getD i 0 = i := by
  rw [List.getD_eq_getElem?_getD, List.getElem?_range h]
  rfl

theorem firstDedup_nodup (l : List Nat) : (firstDedup l).Nodup := by
  suffices h : ∀ acc : List Nat, acc.Nodup →
      (l.foldl (fun acc x => if x ∈ acc then acc else acc ++ [x]) acc).Nodup by
    exact h [] List.nodup_nil
  induction l with
  | nil => intro acc hacc; exact hacc
  | cons x xs ih =>
    intro acc hacc
    rw [List.foldl_cons]
    by_cases hx : x ∈ acc
    · rw [if_pos hx]
      exact ih acc hacc
    · rw [if_neg hx]
      refine ih _ ?_
      rw [List.nodup_append]
      exact ⟨hacc, List.nodup_singleton x, by
        intro a ha hb
        rw [List.mem_singleton] at hb
        exact hx (hb ▸ ha)⟩

theorem samplePieces_consistency (c : Container) (hc : Inv c)
    (req : List Nat) :
    ∀ p ∈ samplePieces c req, ∀ q ∈ p.1, c.owner q = p.2 ∧ q ∈ req := by
  obtain ⟨hnd, hlt, hmem, hrnd, hcons⟩ := hc
  intro p hp q hq
  rw [samplePieces, List.mem_filter] at hp
  obtain ⟨hp1, _⟩ := hp
  obtain ⟨v, hv, rfl⟩ := List.mem_map.mp hp1
  rw [firstDedup_mem] at hv
  obtain ⟨a, ha, rfl⟩ := List.mem_map.mp hv
  rw [List.mem_filter] at hq
  obtain ⟨hq1, hq2⟩ := hq
  exact ⟨(hcons a ha q hq1).2, of_decide_eq_true hq2⟩

theorem mem_selOrder (c : Container) (hc : Inv c) (req : List Nat)
    (q : Nat) (hq : q ∈ req) (hqc : q ∈ c.qubits) : q ∈ selOrder c req := by
  obtain ⟨hnd, hlt, hmem, hrnd, hcons⟩ := hc
  rw [selOrder, List.mem_flatten]
  have hfil : q ∈ (c.repQ (c.owner q)).filter (fun x => decide (x ∈ req)) := by
    rw [List.mem_filter]
    exact ⟨hmem q hqc, decide_eq_true hq⟩
  refine ⟨(c.repQ (c.owner q)).filter (fun x => decide (x ∈ req)), ?_, hfil⟩
  rw [List.mem_map]
  refine ⟨((c.repQ (c.owner q)).filter (fun x => decide (x ∈ req)), c.owner q),
    ?_, rfl⟩
  rw [samplePieces, List.mem_filter]
  constructor
  · rw [List.mem_map]
    refine ⟨c.owner q, ?_, rfl⟩
    rw [firstDedup_mem]
    exact List.mem_map.mpr ⟨q, hqc, rfl⟩
  · have hne : (List.filter (fun x => decide (x ∈ req)) (c.repQ (c.owner q))) ≠ [] :=
      List.ne_nil_of_mem hfil
    simp [List.isEmpty_iff, hne]

theorem selOrder_nodup (c : Container) (hc : Inv c) (req : List Nat) :
    (selOrder c req).Nodup := by
  obtain ⟨hnd, hlt, hmem, hrnd, hcons⟩ := hc
  rw [selOrder, List.nodup_flatten]
  constructor
  · intro s hs
    obtain ⟨p, hp, rfl⟩ := List.mem_map.mp hs
    rw [samplePieces, List.mem_filter] at hp
    obtain ⟨hp1, _⟩ := hp
    obtain ⟨v, hv, rfl⟩ := List.mem_map.mp hp1
    rw [firstDedup_mem] at hv
    obtain ⟨a, ha, rfl⟩ := List.mem_map.mp hv
    exact List.Nodup.filter _ (hrnd a ha)
  · have hvs : (firstDedup (c.qubits.map c.owner)).Nodup := firstDedup_nodup _
    have h1 : ((firstDedup (c.qubits.map c.owner)).map
        (fun v => ((c.repQ v).filter (fun q => decide (q ∈ req)), v))).Pairwise
        (fun p p' => p.2 ≠ p'.2) := by
      rw [List.pairwise_map]
      exact hvs
    have h2 : (samplePieces c req).Pairwise (fun p p' => p.2 ≠ p'.2) :=
      List.Pairwise.filter _ h1
    have h3 : (samplePieces c req).Pairwise
        (fun p p' => p.1.Disjoint p'.1) := by
      refine List.Pairwise.imp_of_mem ?_ h2
      intro p p' hp hp' hne
      intro x hx hx'
      have e1 := (samplePieces_consistency c ⟨hnd, hlt, hmem, hrnd, hcons⟩
        req p hp x hx).1
      have e2 := (samplePieces_consistency c ⟨hnd, hlt, hmem, hrnd, hcons⟩
        req p' hp' x hx').1
      exact hne (e1 ▸ e2)
    rw [List.pairwise_map]
    exact h3

theorem join_map_pointwise (G : Nat → Nat → Bool) (f : Nat → Nat) :
    ∀ (P : List (List Nat × Nat)),
      (∀ p ∈ P, ∀ q ∈ p.1, f q = p.2) →
      (P.map (fun p => p.1.map (fun q => G p.2 q))).flatten =
        ((P.map Prod.fst).flatten).map (fun q => G (f q) q) := by
  intro P
  induction P with
  | nil => intro _; rfl
  | cons p P ih =>
    intro hP
    simp only [List.map_cons, List.flatten_cons, List.map_append]
    rw [ih (fun p' hp' => hP p' (List.mem_cons_of_mem _ hp'))]
    congr 1
    apply List.map_congr_left
    intro q hq
    rw [hP p (List.mem_cons_self _ _) q hq]

theorem repSample_getD (outcome : Nat → Nat → Nat → Bool) (v : Nat)
    (qs : List Nat) (reps i : Nat) (h : i < reps) :
    (repSample outcome v qs reps).getD i [] = qs.map (fun q => outcome v q i) := by
  rw [repSample, getD_map_lt _ _ _ _ 0 (by simpa using h), range_getD _ _ h]

theorem stacked_row (c : Container) (hc : Inv c)
    (outcome : Nat → Nat → Nat → Bool) (req : List Nat) (reps i : Nat)
    (h : i < reps) :
    (columnStack ((samplePieces c req).map
        (fun p => repSample outcome p.2 p.1 reps))).getD i [] =
      (selOrder c req).map (fun q => outcome (c.owner q) q i) := by
  cases hP : samplePieces c req with
  | nil => simp [columnStack, selOrder, hP]
  | cons p P =>
    have hcons := samplePieces_consistency c hc req
    rw [hP] at hcons
    rw [selOrder, hP]
    rw [List.map_cons, columnStack]
    have hlen : (repSample outcome p.2 p.1 reps).length = reps := by
      rw [repSample]
      simp
    rw [hlen]
    rw [getD_map_lt _ _ _ _ 0 (by simpa using h), range_getD _ _ h]
    rw [← List.map_cons (fun p => repSample outcome p.2 p.1 reps) p P]
    rw [List.map_map]
    have hcg : ((p :: P).map
        ((fun mm => mm.getD i []) ∘ (fun p => repSample outcome p.2 p.1 reps))) =
        (p :: P).map (fun p => p.1.map (fun q => outcome p.2 q i)) := by
      apply List.map_congr_left
      intro a _
      show (repSample outcome a.2 a.1 reps).getD i [] = _
      rw [repSample_getD _ _ _ _ _ h]
    rw [hcg]
    exact join_map_pointwise (fun v q => outcome v q i) c.owner (p :: P)
      (fun p' hp' q hq => (hcons p' hp' q hq).1)

/-- **C6.** The container-wide sample draws each distinct instance
independently for the requested sub-qubits it owns and re-interleaves the
columns into the caller's requested qubit order: the result has `repetitions`
rows of `len(request)` entries, `selected_order` is duplicate-free, and entry
`(i, j)` is the outcome of the `j`-th requested qubit in repetition `i` of the
experiment of the instance owning that qubit. -/
theorem container_sample_interleaving (c : Container) (hc : Inv c)
    (outcome : Nat → Nat → Nat → Bool) (req : List Nat) (reps : Nat)
    (hsub : ∀ q ∈ req, q ∈ c.qubits) (hnd : req.Nodup) (hne : req ≠ []) :
    (containerSample c outcome req reps).length = reps ∧
    (∀ row ∈ containerSample c outcome req reps, row.length = req.length) ∧
    (selOrder c req).Nodup ∧
    (∀ i j, i < reps → j < req.length →
      ((containerSample c outcome req reps).getD i []).getD j false =
        outcome (c.owner (req.getD j 0)) (req.getD j 0) i) := by
  have hPne : samplePieces c req ≠ [] := by
    intro hP
    match req, hne with
    | q :: req', _ =>
      have hq := mem_selOrder c hc (q :: req') q (List.mem_cons_self _ _)
        (hsub q (List.mem_cons_self _ _))
      rw [selOrder, hP] at hq
      simp at hq
  have hstlen : (columnStack ((samplePieces c req).map
      (fun p => repSample outcome p.2 p.1 reps))).length = reps := by
    cases hP : samplePieces c req with
    | nil => exact absurd hP hPne
    | cons p P =>
      rw [List.map_cons, columnStack]
      have hlen : (repSample outcome p.2 p.1 reps).length = reps := by
        rw [repSample]; simp
      rw [hlen]
      simp
  refine ⟨?_, ?_, selOrder_nodup c hc req, ?_⟩
  · rw [containerSample, List.length_map]
    exact hstlen
  · intro row hrow
    rw [containerSample] at hrow
    obtain ⟨r, _, rfl⟩ := List.mem_map.mp hrow
    simp
  · intro i j hi hj
    have hq : req.getD j 0 ∈ req := getD_mem req 0 j hj
    have hqc : req.getD j 0 ∈ c.qubits := hsub _ hq
    have hqsel : req.getD j 0 ∈ selOrder c req := mem_selOrder c hc req _ hq hqc
    obtain ⟨hidx, hval⟩ := idxOf_spec (selOrder c req) (req.getD j 0) hqsel
    rw [containerSample, getD_map_lt _ _ _ _ [] (by rw [hstlen]; exact hi)]
    rw [getD_map_lt _ _ _ _ 0 (by simpa using hj)]
    rw [getD_map_lt _ _ _ _ 0 hj]
    rw [stacked_row c hc outcome req reps i hi]
    rw [getD_map_lt _ _ _ _ 0 hidx, hval]

theorem container_sample_interleaving_witness :
    (containerSample contW (fun v q i => (v + q + i) % 2 == 0) [1, 0] 2).length
      = 2 ∧
    (∀ i j, i < 2 → j < 2 →
      ((containerSample contW (fun v q i => (v + q + i) % 2 == 0)
        [1, 0] 2).getD i []).getD j false =
        ((contW.owner ([1, 0].getD j 0) + [1, 0].getD j 0 + i) % 2 == 0)) := by
  have hc : Inv contW := by
    unfold Inv contW
    refine ⟨by decide, ?_, ?_, ?_, ?_⟩ <;> decide
  have h := container_sample_interleaving contW hc
    (fun v q i => (v + q + i) % 2 == 0) [1, 0] 2 (by decide) (by decide)
    (by decide)
  exact ⟨h.1, fun i j hi hj => h.2.2.2 i j hi hj⟩

/-! ### Stabilizer CH-form sampling

Embeds `ActOnStabilizerCHFormArgs.sample` (act_on_stabilizer_ch_form_args.py,
lines 104-122).  The tableau type `T` and its measurement update are abstract
(`stabilizer_state_ch_form.py` is outside the excerpt; modelled from the spec:
the tableau mutates on measurement, threading the pseudo-random generator, so
sampling replays independent copies).  To make the frame property observable,
tableaus live in an explicit store of cells (the Python heap): the sampled
representation holds a cell reference; each repetition reads the live tableau,
copies it into a fresh cell (`state = self.state.copy()`), builds fresh args on
that cell, and acts the measurement there — mutating only the fresh cell. -/

structure CHArgs where
  ref : Nat
  qubits : List Nat

/-- The pseudo-random generator state before repetition `i` (the single `prng`
is threaded through the repetitions in order). -/
def prngAt {T P : Type} (measure : T → List Nat → P → List Bool × T × P)
    (t : T) (qs : List Nat) : P → Nat → P
  | p, 0 => p
  | p, i + 1 => prngAt measure t qs ((measure t qs p).2.2) i

/-- The `for i in range(repetitions)` loop: measure a fresh copy of the live
tableau once per repetition, recording row `i` under key `str(i)`. -/
def chSampleLoop {T P : Type}
    (measure : T → List Nat → P → List Bool × T × P) (dflt : T)
    (qs : List Nat) (s : CHArgs) :
    Nat → List T → P → List (List Bool) × List T × P
  | 0, store, prng => ([], store, prng)
  | n + 1, store, prng =>
    let r := measure (store.getD s.ref dflt) qs prng
    let rest := chSampleLoop measure dflt qs s n (store ++ [r.2.1]) r.2.2
    (r.1 :: rest.1, rest.2.1, rest.2.2)

def chSample {T P : Type} (measure : T → List Nat → P → List Bool × T × P)
    (dflt : T) (store : List T) (s : CHArgs) (qs : List Nat) (reps : Nat)
    (seed : P) : List (List Bool) × List T :=
  ((chSampleLoop measure dflt qs s reps store seed).1,
    (chSampleLoop measure dflt qs s reps store seed).2.1)

theorem chSampleLoop_spec {T P : Type}
    (measure : T → List Nat → P → List Bool × T × P) (dflt : T)
    (qs : List Nat) (s : CHArgs) :
    ∀ (n : Nat) (store : List T) (prng : P), s.ref < store.length →
      (∀ k, k < store.length →
        (chSampleLoop measure dflt qs s n store prng).2.1.getD k dflt =
          store.getD k dflt) ∧
      (chSampleLoop measure dflt qs s n store prng).1.length = n ∧
      (∀ i, i < n →
        (chSampleLoop measure dflt qs s n store prng).1.getD i [] =
          (measure (store.getD s.ref dflt) qs
            (prngAt measure (store.getD s.ref dflt) qs prng i)).1) := by
  intro n
  induction n with
  | zero =>
    intro store prng _
    exact ⟨fun k _ => rfl, rfl, fun i hi => absurd hi (by omega)⟩
  | succ n ih =>
    intro store prng href
    have hlive : (store ++ [(measure (store.getD s.ref dflt) qs prng).2.1]).getD
        s.ref dflt = store.getD s.ref dflt := by
      have h := getD_append_left store
        [(measure (store.getD s.ref dflt) qs prng).2.1] dflt s.ref href
      exact h
    obtain ⟨hpres, hlen, hrows⟩ := ih
      (store ++ [(measure (store.getD s.ref dflt) qs prng).2.1])
      (measure (store.getD s.ref dflt) qs prng).2.2
      (by rw [List.length_append]; omega)
    rw [chSampleLoop]
    refine ⟨?_, ?_, ?_⟩
    · intro k hk
      rw [hpres k (by rw [List.length_append]; omega)]
      exact getD_append_left store _ dflt k hk
    · simpa using hlen
    · intro i hi
      cases i with
      | zero =>
        rfl
      | succ i' =>
        show (chSampleLoop measure dflt qs s n _ _).1.getD i' [] = _
        rw [hrows i' (by omega), hlive]
        rfl

/-- **C7.** Sampling a stabilizer CH-form representation is non-destructive:
every pre-existing cell of the store — in particular the live tableau of the
sampled representation — is unchanged by the call, the result has one row per
repetition, and row `i` is the measurement of a fresh copy of the (original)
live tableau with the prng state threaded to repetition `i`: the state is
never collapsed by sampling. -/
theorem ch_sample_nondestructive {T P : Type}
    (measure : T → List Nat → P → List Bool × T × P) (dflt : T)
    (store : List T) (s : CHArgs) (qs : List Nat) (reps : Nat) (seed : P)
    (href : s.ref < store.length) :
    (chSample measure dflt store s qs reps seed).2.getD s.ref dflt =
      store.getD s.ref dflt ∧
    (∀ k, k < store.length →
      (chSample measure dflt store s qs reps seed).2.getD k dflt =
        store.getD k dflt) ∧
    (chSample measure dflt store s qs reps seed).1.length = reps ∧
    (∀ i, i < reps →
      (chSample measure dflt store s qs reps seed).1.getD i [] =
        (measure (store.getD s.ref dflt) qs
          (prngAt measure (store.getD s.ref dflt) qs seed i)).1) := by
  obtain ⟨hpres, hlen, hrows⟩ :=
    chSampleLoop_spec measure dflt qs s reps store seed href
  exact ⟨hpres s.ref href, hpres, hlen, hrows⟩

theorem ch_sample_nondestructive_witness :
    (chSample (fun (t : Nat) (_ : List Nat) (p : Nat) => ([t % 2 == 0], t + 1, p + 1))
      0 [5, 7] ⟨0, [0]⟩ [0] 3 0).2.getD 0 0 = 5 ∧
    (chSample (fun (t : Nat) (_ : List Nat) (p : Nat) => ([t % 2 == 0], t + 1, p + 1))
      0 [5, 7] ⟨0, [0]⟩ [0] 3 0).1.length = 3 := by
  have h := ch_sample_nondestructive
    (fun (t : Nat) (_ : List Nat) (p : Nat) => ([t % 2 == 0], t + 1, p + 1))
    0 [5, 7] ⟨0, [0]⟩ [0] 3 0 (by decide)
  exact ⟨h.1, h.2.2.1⟩

/-! ### Mixture selection and channel rescaling

Embeds `_strat_act_on_state_vector_from_mixture` (lines 298-316) and the
completion of `_strat_act_on_state_vector_from_channel` (lines 319-365).  The
state vector type `V` is an abstract module; `applyU idx` is the targeted left
multiplication by branch `idx`'s unitary, `kraus` the list of Kraus-operator
applications, `norm2` the squared norm (`np.linalg.norm(...) ** 2`), and
`sqrtFn` the square root (`np.sqrt`).  The buffer-swap idiom appears as: the
new target is the computed buffer, the new available buffer is the old
target. -/

structure SVState (V : Type) where
  target : V
  buffer : V
  log : List (String × Nat)

/-- Mixture strategy: apply the drawn branch's unitary into the buffer, swap,
and record the drawn branch index under the operation's key iff the operation
is a measurement (`protocols.is_measurement`). -/
def mixtureStrat {V : Type} (applyU : Nat → V → V) (idx : Nat)
    (isMeas : Bool) (key : String) (s : SVState V) : SVState V :=
  { target := applyU idx s.target, buffer := s.target,
    log := if isMeas then s.log ++ [(key, idx)] else s.log }

/-- Channel strategy: select a branch by `selectKraus` over the computed
weights, re-prepare the buffer at the selected index, divide it by
`sqrt(weight)` (`available_buffer /= np.sqrt(weight)`), swap, and record the
branch index iff the operation is a measurement. -/
def channelStrat {α V : Type} [LinearOrderedField α] [AddCommGroup V]
    [Module α V] (sqrtFn : α → α) (kraus : List (V → V)) (norm2 : V → α)
    (p : α) (isMeas : Bool) (key : String) (s : SVState V) :
    Option (SVState V) :=
  match selectKraus (kraus.map (fun K => norm2 (K s.target))) p with
  | none => none
  | some (i, w) =>
    some { target := (sqrtFn w)⁻¹ • (kraus.getD i id) s.target,
           buffer := s.target,
           log := if isMeas then s.log ++ [(key, i)] else s.log }

/-- **C8.** In both the mixture and channel strategies the drawn branch index
is recorded to the classical data log under the operation's key if and only if
the operation is measurement-like; and the channel rescales the unnormalized
buffer by `1 / sqrt(w_i)` of the selected branch's own weight before swapping
it in as the new state. -/
theorem branch_record_and_rescale {α V : Type} [LinearOrderedField α]
    [AddCommGroup V] [Module α V] (sqrtFn : α → α) (applyU : Nat → V → V)
    (kraus : List (V → V)) (norm2 : V → α) (p : α) (isMeas : Bool)
    (key : String) (s : SVState V) (hne : kraus ≠ [])
    (hnn : ∀ K ∈ kraus, 0 ≤ norm2 (K s.target)) :
    (∀ idx, (mixtureStrat applyU idx isMeas key s).log =
      s.log ++ (if isMeas then [(key, idx)] else []) ∧
      (mixtureStrat applyU idx isMeas key s).target = applyU idx s.target ∧
      (mixtureStrat applyU idx isMeas key s).buffer = s.target) ∧
    (∃ i, i < kraus.length ∧
      channelStrat sqrtFn kraus norm2 p isMeas key s = some
        { target := (sqrtFn (norm2 ((kraus.getD i id) s.target)))⁻¹ •
            (kraus.getD i id) s.target,
          buffer := s.target,
          log := s.log ++ (if isMeas then [(key, i)] else []) }) := by
  constructor
  · intro idx
    refine ⟨?_, rfl, rfl⟩
    rw [mixtureStrat]
    cases isMeas <;> simp
  · have hwne : kraus.map (fun K => norm2 (K s.target)) ≠ [] := by
      intro h
      exact hne (List.map_eq_nil_iff.mp h)
    have hwnn : ∀ x ∈ kraus.map (fun K => norm2 (K s.target)), 0 ≤ x := by
      intro x hx
      obtain ⟨K, hK, rfl⟩ := List.mem_map.mp hx
      exact hnn K hK
    obtain ⟨i, w, hsel⟩ :=
      selectKraus_isSome (kraus.map (fun K => norm2 (K s.target))) p hwne
    obtain ⟨hi, hw⟩ :=
      selectKraus_sound (kraus.map (fun K => norm2 (K s.target))) p i w hwnn hsel
    rw [List.length_map] at hi
    have hwval : w = norm2 ((kraus.getD i id) s.target) := by
      rw [hw, getD_map_lt kraus _ i 0 id hi]
    refine ⟨i, hi, ?_⟩
    rw [channelStrat, hsel, hwval]
    cases isMeas <;> simp

theorem branch_record_and_rescale_witness :
    ∃ i, i < 1 ∧
      channelStrat (α := ℚ) (V := ℚ) (fun x => x) [fun x => x]
        (fun x => x * x) (1/2) true "k" ⟨2, 0, []⟩ = some
        { target := ((fun (x : ℚ) => x) ((fun (x : ℚ) => x * x)
            (([fun (x : ℚ) => x].getD i id) (2 : ℚ))))⁻¹ •
            (([fun (x : ℚ) => x].getD i id) (2 : ℚ)),
          buffer := 2,
          log := [] ++ (if true then [("k", i)] else []) } := by
  have h := branch_record_and_rescale (α := ℚ) (V := ℚ) (fun x => x)
    (fun _ x => x) [fun x => x] (fun x => x * x) (1/2) true "k" ⟨2, 0, []⟩
    (by simp) ?hnn
  · exact h.2
  case hnn =>
    intro K hK
    rw [List.mem_singleton] at hK
    subst hK
    norm_num

/-! ### State-vector sampling determinism

Embeds `ActOnStateVectorArgs.sample` (lines 252-265): compute the axis
indices of the requested qubits from the representation's qubit order and
delegate to `sim.sample_state_vector(target_tensor, indices, ..., seed=seed)`.
`sample_state_vector` is outside the excerpt; modelled from the spec as a pure
function `core` of the tensor, the indices, the repetition count and the seed
(non-destructive sampling, deterministic for a fixed seed).  The
representation — including its mutable `prng`, which only destructive
measurement uses — is returned unchanged. -/

structure SVArgs (V : Type) where
  target : V
  qubits : List Nat
  prng : Nat

def svSample {V S M : Type} (core : V → List Nat → Nat → S → M)
    (s : SVArgs V) (qs : List Nat) (reps : Nat) (seed : S) : M × SVArgs V :=
  (core s.target (qs.map (fun q => idxOf s.qubits q)) reps seed, s)

/-- **C9.** Sampling is deterministic in the seed: a call leaves the
representation unmutated, a second call with identical arguments (same fixed
seed) returns an identical outcome matrix, and the result does not depend on
the representation's internal `prng` state (only on the tensor, the qubit
order, the arguments and the seed). -/
theorem sample_deterministic {V S M : Type} (core : V → List Nat → Nat → S → M)
    (s : SVArgs V) (qs : List Nat) (reps : Nat) (seed : S) :
    (svSample core s qs reps seed).2 = s ∧
    (svSample core (svSample core s qs reps seed).2 qs reps seed).1 =
      (svSample core s qs reps seed).1 ∧
    (∀ p p' : Nat,
      (svSample core ⟨s.target, s.qubits, p⟩ qs reps seed).1 =
        (svSample core ⟨s.target, s.qubits, p'⟩ qs reps seed).1) :=
  ⟨rfl, rfl, fun _ _ => rfl⟩

end CirqSim
